import Mathlib

/-!
# Shamir secret sharing over GF(256)

A shallow embedding of `app/src/main/cpp/pqc/shamir/shamir.cpp` and theorems about it.

Conventions of the embedding:

* a `uint8_t` is a `Nat` below 256; where the C++ code stores a value that can leave that
  range into a `uint8_t`, the embedding reduces it `% 256`;
* an `int` is an `Int`; `static_cast<uint8_t>(i)` is `(i % 256).toNat`;
* a `std::vector<T>` is a `List T`; sizes are natural numbers, and the one `size_t`
  subtraction that can wrap (`shares[0].size() - 1` on an empty share) is modelled
  explicitly in `recoverSecret`;
* a thrown C++ exception is the `Except.error` case of `Except Exn`;
* the random generator is a function `rand : Nat → Nat`: the `k`-th call (counting from 0)
  of `generateRandomBytes(1)` made by one `splitSecret` returns the byte `rand k % 256`.
-/

namespace shamir

/-- The ways a call ends without returning a value. -/
inductive Exn where
  /-- A `std::invalid_argument` with its message. -/
  | invalid_argument (what : String)
  /-- The `std::length_error` of a `std::vector` constructor asked for more than
  `max_size()` elements. -/
  | length_error
  /-- An `operator[]` read past the end of a vector (undefined behaviour in C++). -/
  | out_of_bounds
  deriving DecidableEq

deriving instance DecidableEq for Except

/-- Read `v[i]`; reading past the end is undefined behaviour, kept apart as
`Exn.out_of_bounds`. -/
def readAt {α : Type} (v : List α) (i : Nat) : Except Exn α :=
  match v[i]? with
  | some a => pure a
  | none => throw Exn.out_of_bounds

namespace field

/-- The `for` loop of `field::mul` with `n` iterations left, on the locals `p`, `a`, `b`. -/
def mulLoop : Nat → Nat → Nat → Nat → Nat
  | 0, p, _, _ => p
  | n + 1, p, a, b =>
    let p := if b &&& 1 ≠ 0 then p ^^^ a else p
    let high_bit := a &&& 0x80
    let a := (a <<< 1) % 256
    let a := if high_bit ≠ 0 then a ^^^ 0x1B else a
    mulLoop n p a (b >>> 1)

/-- The function `field::mul`: multiplication in GF(256). The arguments are converted to
`uint8_t`. -/
def mul (a b : Nat) : Nat := mulLoop 8 0 (a % 256) (b % 256)

/-- The loop of `field::div` that computes `b_inv`, with `n` iterations left. -/
def invLoop : Nat → Nat → Nat → Nat
  | 0, b_inv, _ => b_inv
  | n + 1, b_inv, b => invLoop n (mul b_inv b) b

/-- The function `field::div`: division in GF(256); throws on a zero divisor. -/
def div (a b : Nat) : Except Exn Nat :=
  if b % 256 = 0 then throw (Exn.invalid_argument "Division by zero")
  else pure (mul a (invLoop 254 1 b))

end field

/-- The range-`for` loop of `evaluatePolynomial` over the remaining coefficients, on the
locals `result` and `x_pow`. -/
def evalLoop (x : Nat) : List Nat → Nat → Nat → Nat
  | [], result, _ => result
  | coeff :: rest, result, x_pow =>
    evalLoop x rest (result ^^^ field.mul coeff x_pow) (field.mul x_pow x)

/-- The function `evaluatePolynomial`: the value at `x` of the polynomial with the given
coefficients. -/
def evaluatePolynomial (coefficients : List Nat) (x : Nat) : Nat :=
  evalLoop x coefficients 0 1

/-- The inner loop body of `interpolate` for the indices `i` and `j`. -/
def interpolateStep (x_values : List Nat) (x i : Nat) (term : Nat) (j : Nat) :
    Except Exn Nat :=
  if i ≠ j then do
    let numerator := x ^^^ x_values.getD j 0
    let denominator := x_values.getD i 0 ^^^ x_values.getD j 0
    let q ← field.div numerator denominator
    pure (field.mul term q)
  else pure term

/-- The outer loop body of `interpolate` for the index `i`. -/
def interpolateTerm (x_values y_values : List Nat) (x : Nat) (result : Nat) (i : Nat) :
    Except Exn Nat := do
  let term ← readAt y_values i
  let term ← List.foldlM (interpolateStep x_values x i) term (List.range x_values.length)
  pure (result ^^^ term)

/-- The function `interpolate`: Lagrange interpolation at `x` through the points
`(x_values[i], y_values[i])`. -/
def interpolate (x_values y_values : List Nat) (x : Nat) : Except Exn Nat :=
  List.foldlM (interpolateTerm x_values y_values x) 0 (List.range x_values.length)

/-- The call `std::vector::resize(n)` on a byte vector: truncate, or pad with zero bytes. -/
def resize (v : List Nat) (n : Nat) : List Nat :=
  v.take n ++ List.replicate (n - v.length) 0

/-- The loop of `splitSecret` that draws the coefficients of degree `i ≥ 1`; the state is
the coefficient vector and the number of random bytes drawn so far. -/
def coeffStep (rand : Nat → Nat) (s : List Nat × Nat) (i : Nat) : List Nat × Nat :=
  (s.1.set i (rand s.2 % 256), s.2 + 1)

/-- The body of the share loop of `splitSecret` for one `shareIndex`. -/
def shareStep (secretSize byteIndex : Nat) (coefficients : List Nat)
    (shares : List (List Nat)) (shareIndex : Nat) : List (List Nat) :=
  let x := (shareIndex + 1) % 256
  let y := evaluatePolynomial coefficients x
  let share := shares.getD shareIndex []
  let share := if byteIndex = 0 then (resize share (secretSize + 1)).set 0 x else share
  shares.set shareIndex (share.set (byteIndex + 1) y)

/-- The body of the byte loop of `splitSecret` for one `byteIndex`; the state is the
share vector and the number of random bytes drawn so far. -/
def byteStep (rand : Nat → Nat) (secret : List Nat) (totalShares threshold : Int)
    (s : List (List Nat) × Nat) (byteIndex : Nat) : List (List Nat) × Nat :=
  let coefficients := (List.replicate threshold.toNat 0).set 0 (secret.getD byteIndex 0)
  let c := List.foldl (coeffStep rand) (coefficients, s.2)
    (List.range' 1 (threshold.toNat - 1))
  (List.foldl (shareStep secret.length byteIndex c.1) s.1 (List.range totalShares.toNat), c.2)

/-- The function `splitSecret`, returning with the shares the number of random bytes it has
drawn. -/
def splitSecretRun (rand : Nat → Nat) (secret : List Nat) (totalShares threshold : Int) :
    Except Exn (List (List Nat) × Nat) :=
  if threshold > totalShares then
    throw (Exn.invalid_argument "Threshold cannot be greater than total shares")
  else if threshold < 2 then
    throw (Exn.invalid_argument "Threshold must be at least 2")
  else if totalShares > 255 then
    throw (Exn.invalid_argument "Total shares cannot exceed 255")
  else
    pure (List.foldl (byteStep rand secret totalShares threshold)
      (List.replicate totalShares.toNat [], 0) (List.range secret.length))

/-- The function `splitSecret`: split a secret into `totalShares` shares. -/
def splitSecret (rand : Nat → Nat) (secret : List Nat) (totalShares threshold : Int) :
    Except Exn (List (List Nat)) :=
  (splitSecretRun rand secret totalShares threshold).map Prod.fst

/-- The copy loop of `recoverSecret` for share `i`: `y_values[byteIndex][i] =
shares[i][byteIndex + 1]`. -/
def copyStep (share : List Nat) (i : Nat) (y_values : List (List Nat)) (byteIndex : Nat) :
    List (List Nat) :=
  y_values.set byteIndex ((y_values.getD byteIndex []).set i (share.getD (byteIndex + 1) 0))

/-- The body of the first loop of `recoverSecret` for share `i`; the state is
`(x_values, y_values)`. -/
def gatherStep (shareIds : List Int) (shares : List (List Nat)) (secretSize : Nat)
    (s : List Nat × List (List Nat)) (i : Nat) : Except Exn (List Nat × List (List Nat)) :=
  if (shares.getD i []).length ≠ secretSize + 1 then
    throw (Exn.invalid_argument "Shares have inconsistent sizes")
  else do
    let id ← readAt shareIds i
    pure (s.1.set i (id % 256).toNat,
      List.foldl (copyStep (shares.getD i []) i) s.2 (List.range secretSize))

/-- The body of the second loop of `recoverSecret` for one `byteIndex`. -/
def recoverStep (x_values : List Nat) (y_values : List (List Nat)) (secret : List Nat)
    (byteIndex : Nat) : Except Exn (List Nat) := do
  let v ← interpolate x_values (y_values.getD byteIndex []) 0
  pure (secret.set byteIndex v)

/-- The function `recoverSecret`: recover a secret from shares and their ids.

`secretSize = shares[0].size() - 1` is computed in `size_t`: for an empty first share it
wraps to `SIZE_MAX`, and the constructor of `y_values(secretSize, ...)` then throws
`std::length_error`, before the loop that compares the share sizes. -/
def recoverSecret (shareIds : List Int) (shares : List (List Nat)) :
    Except Exn (List Nat) :=
  if shares.length < 2 then
    throw (Exn.invalid_argument "At least 2 shares are required")
  else
    match (shares.getD 0 []).length with
    | 0 => throw Exn.length_error
    | secretSize + 1 => do
      let x_values := List.replicate shares.length 0
      let y_values := List.replicate secretSize (List.replicate shares.length 0)
      let s ← List.foldlM (gatherStep shareIds shares secretSize) (x_values, y_values)
        (List.range shares.length)
      List.foldlM (recoverStep s.1 s.2) (List.replicate secretSize 0) (List.range secretSize)

/-! ## Auxiliary definitions

Names for the values that the loops above compute, used to state what the functions return,
and the interpolation formula of the specification, written after its words. -/

/-- The update of `a` in one iteration of `field::mul` (multiplication by the
indeterminate). -/
def xtime (a : Nat) : Nat :=
  if a &&& 0x80 ≠ 0 then ((a <<< 1) % 256) ^^^ 0x1B else (a <<< 1) % 256

/-- The power `b ^ n` as `field::div` computes it. -/
def gpow (b n : Nat) : Nat := field.invLoop n 1 b

/-- Squaring in GF(256). -/
def sqr (b : Nat) : Nat := field.mul b b

/-- The 254th power by repeated squaring. -/
def inv254 (b : Nat) : Nat :=
  let b2 := sqr b
  let b4 := sqr b2
  let b8 := sqr b4
  let b16 := sqr b8
  let b32 := sqr b16
  let b64 := sqr b32
  let b128 := sqr b64
  field.mul b2 (field.mul b4 (field.mul b8 (field.mul b16 (field.mul b32
    (field.mul b64 b128)))))

/-- The x-coordinates `xs`, read as field elements, are pairwise different. -/
def DistinctBytes (xs : List Nat) : Prop :=
  ∀ i < xs.length, ∀ j < xs.length, i ≠ j → xs.getD i 0 % 256 ≠ xs.getD j 0 % 256

/-- The coefficient vector that `splitSecret` builds for byte position `i`: the secret byte
followed by the `threshold - 1` random bytes drawn for that position. -/
def splitCoefficients (rand : Nat → Nat) (secret : List Nat) (threshold i : Nat) : List Nat :=
  secret.getD i 0
    :: (List.range (threshold - 1)).map (fun u => rand (i * (threshold - 1) + u) % 256)

/-- The share of index `k` once the first `b ≥ 1` byte positions have been processed, for a
secret of `L` bytes. -/
def shareAfter (rand : Nat → Nat) (secret : List Nat) (threshold L b k : Nat) : List Nat :=
  (List.range (L + 1)).map (fun u =>
    if u = 0 then (k + 1) % 256
    else if u ≤ b then
      evaluatePolynomial (splitCoefficients rand secret threshold (u - 1)) ((k + 1) % 256)
    else 0)

/-- The shares that `splitSecret` returns: none of the shares is initialised for an empty
secret; otherwise share `k` is its x-coordinate `k + 1` followed by the values at `k + 1`
of the polynomials of the byte positions. -/
def splitShares (rand : Nat → Nat) (secret : List Nat) (totalShares threshold : Nat) :
    List (List Nat) :=
  if secret.length = 0 then List.replicate totalShares []
  else (List.range totalShares).map (fun k =>
    ((k + 1) % 256) :: (List.range secret.length).map (fun i =>
      evaluatePolynomial (splitCoefficients rand secret threshold i) ((k + 1) % 256)))

/-- The x-coordinate that `recoverSecret` uses for share `i`:
`static_cast<uint8_t>(shareIds[i])`. -/
def idByte (shareIds : List Int) (i : Nat) : Nat := (shareIds.getD i 0 % 256).toNat

/-- The vector `x_values` that `recoverSecret` builds for `n` shares. -/
def gatheredX (shareIds : List Int) (n : Nat) : List Nat :=
  (List.range n).map (idByte shareIds)

/-- The vector `y_values[b]` that `recoverSecret` builds. -/
def gatheredY (shares : List (List Nat)) (b : Nat) : List Nat :=
  (List.range shares.length).map (fun i => (shares.getD i []).getD (b + 1) 0)

/-- Following the specification: the quotient `a / b` of `field::div` (0 where it throws). -/
def specQuotient (a b : Nat) : Nat :=
  match field.div a b with
  | Except.ok q => q
  | Except.error _ => 0

/-- Following the specification: the product over `m ≠ j` of `x_m / (x_j XOR x_m)`, with
`field::mul` and `field::div`. -/
def specLagrangeWeight (xs : List Nat) (j : Nat) : Nat :=
  ((List.range xs.length).filter (fun m => m ≠ j)).foldr
    (fun m acc => field.mul (specQuotient (xs.getD m 0) (xs.getD j 0 ^^^ xs.getD m 0)) acc) 1

/-- Following the specification: the XOR over `j` of `y_j * Π_{m ≠ j} x_m / (x_j XOR x_m)`,
the Lagrange value at 0 through the points `(x_j, y_j)`. -/
def specLagrangeAtZero (xs ys : List Nat) : Nat :=
  (List.range xs.length).foldr
    (fun j acc => field.mul (ys.getD j 0) (specLagrangeWeight xs j) ^^^ acc) 0

/-- Following the specification: the power `x^i` in GF(256), with `x^0 = 1` and
`x^(i+1) = field::mul(x^i, x)`. -/
def specPow (x : Nat) : Nat → Nat
  | 0 => 1
  | i + 1 => field.mul (specPow x i) x

/-- Following the specification: the XOR over `i < len(c)` of `field::mul(c[i], x^i)`. -/
def specPolyValue (c : List Nat) (x : Nat) : Nat :=
  ((List.range c.length).map (fun i => field.mul (c.getD i 0) (specPow x i))).foldl
    (fun acc term => acc ^^^ term) 0

/-- Following the specification: the carry-less (XOR-based) product of the polynomial `a`
by the polynomial `b` of degree below 8 over GF(2), bit `i` being the coefficient of `x^i`:
the XOR of the shifts `a * x^i` for the bits `i` of `b`. -/
def clmul (a b : Nat) : Nat :=
  (List.range 8).foldl (fun acc i => if b.testBit i then acc ^^^ (a <<< i) else acc) 0

/-- Following the specification: long division by `x^8 + x^4 + x^3 + x + 1` (`0x11B`) over
GF(2), from the given degrees down: where the remainder `r` has the bit `i`, the multiple
`0x11B * x^(i-8)` is subtracted (XOR) and `x^(i-8)` goes to the quotient `q`. -/
def divLoop : List Nat → Nat → Nat → Nat × Nat
  | [], q, r => (q, r)
  | i :: rest, q, r =>
    if r.testBit i then divLoop rest (q ^^^ (1 <<< (i - 8))) (r ^^^ (0x11B <<< (i - 8)))
    else divLoop rest q r

/-- Following the specification: the quotient of a polynomial of degree at most 14 (such
as the product of two bytes) by `0x11B`. -/
def polyQuot (p : Nat) : Nat := (divLoop [14, 13, 12, 11, 10, 9, 8] 0 p).1

/-- Following the specification: the remainder of a polynomial of degree at most 14 (such
as the product of two bytes) modulo `0x11B`. -/
def polyRem (p : Nat) : Nat := (divLoop [14, 13, 12, 11, 10, 9, 8] 0 p).2

/-! ## Bitwise facts about bytes -/

theorem xor_mod_256 (a b : Nat) : (a ^^^ b) % 256 = a % 256 ^^^ b % 256 := by
  apply Nat.eq_of_testBit_eq
  intro i
  have h : (256 : Nat) = 2 ^ 8 := by norm_num
  simp only [h, Nat.testBit_mod_two_pow, Nat.testBit_xor]
  by_cases hi : i < 8 <;> simp [hi]

theorem shl1_xor (a b : Nat) : (a ^^^ b) <<< 1 = (a <<< 1) ^^^ (b <<< 1) := by
  apply Nat.eq_of_testBit_eq
  intro i
  simp only [Nat.testBit_shiftLeft, Nat.testBit_xor]
  by_cases hi : 1 ≤ i <;> simp [hi]

theorem shr1_xor (a b : Nat) : (a ^^^ b) >>> 1 = (a >>> 1) ^^^ (b >>> 1) := by
  apply Nat.eq_of_testBit_eq
  intro i
  simp only [Nat.testBit_shiftRight, Nat.testBit_xor]

theorem and_pow_cases (a i : Nat) : a &&& 2 ^ i = 0 ∨ a &&& 2 ^ i = 2 ^ i := by
  rw [Nat.and_two_pow]
  by_cases hb : a.testBit i <;> simp [hb]

theorem and_128_cases (a : Nat) : a &&& 128 = 0 ∨ a &&& 128 = 128 := and_pow_cases a 7

theorem and_1_cases (a : Nat) : a &&& 1 = 0 ∨ a &&& 1 = 1 := and_pow_cases a 0

theorem xor_lt_256 {a b : Nat} (ha : a < 256) (hb : b < 256) : a ^^^ b < 256 :=
  Nat.xor_lt_two_pow (n := 8) ha hb

theorem nat_xor_left_comm (a b c : Nat) : a ^^^ (b ^^^ c) = b ^^^ (a ^^^ c) := by
  rw [← Nat.xor_assoc, Nat.xor_comm a b, Nat.xor_assoc]

theorem nat_xor_self_left (a b : Nat) : a ^^^ (a ^^^ b) = b := by
  rw [← Nat.xor_assoc, Nat.xor_self, Nat.zero_xor]

/-! ## `field::mul` is XOR-bilinear -/

theorem mulLoop_succ (n p a b : Nat) :
    field.mulLoop (n + 1) p a b
      = field.mulLoop n (if b &&& 1 ≠ 0 then p ^^^ a else p) (xtime a) (b >>> 1) := rfl

theorem xtime_lt (a : Nat) : xtime a < 256 := by
  unfold xtime
  split
  · exact xor_lt_256 (Nat.mod_lt _ (by norm_num)) (by norm_num)
  · exact Nat.mod_lt _ (by norm_num)

theorem xtime_xor (a b : Nat) : xtime (a ^^^ b) = xtime a ^^^ xtime b := by
  unfold xtime
  rw [Nat.and_xor_distrib_right, shl1_xor, xor_mod_256]
  generalize (a <<< 1) % 256 = u
  generalize (b <<< 1) % 256 = v
  rcases and_128_cases a with ha | ha <;> rcases and_128_cases b with hb | hb <;>
    simp only [ha, hb] <;>
    simp [Nat.xor_assoc, Nat.xor_comm, nat_xor_left_comm, nat_xor_self_left]

theorem mulLoop_lt (n : Nat) :
    ∀ p a b, p < 256 → a < 256 → field.mulLoop n p a b < 256 := by
  induction n with
  | zero => intro p a b hp _; exact hp
  | succ n ih =>
    intro p a b hp ha
    rw [mulLoop_succ]
    apply ih _ _ _ _ (xtime_lt a)
    split
    · exact xor_lt_256 hp ha
    · exact hp

theorem gf_mul_lt (a b : Nat) : field.mul a b < 256 :=
  mulLoop_lt 8 0 _ _ (by norm_num) (Nat.mod_lt _ (by norm_num))

theorem mulLoop_xor_left (n : Nat) : ∀ p q a c b,
    field.mulLoop n (p ^^^ q) (a ^^^ c) b
      = field.mulLoop n p a b ^^^ field.mulLoop n q c b := by
  induction n with
  | zero => intro p q a c b; rfl
  | succ n ih =>
    intro p q a c b
    simp only [mulLoop_succ, xtime_xor]
    rw [← ih]
    congr 1
    split
    · rw [Nat.xor_assoc, Nat.xor_assoc, ← Nat.xor_assoc q a c, Nat.xor_comm q a,
        Nat.xor_assoc a q c]
    · rfl

theorem mulLoop_acc (n : Nat) : ∀ p a b,
    field.mulLoop n p a b = p ^^^ field.mulLoop n 0 a b := by
  induction n with
  | zero => intro p a b; simp [field.mulLoop]
  | succ n ih =>
    intro p a b
    simp only [mulLoop_succ]
    rw [ih]
    split
    · rw [ih (0 ^^^ a), Nat.zero_xor, Nat.xor_assoc]
    · rfl

theorem mulLoop_xor_right (n : Nat) : ∀ p a b c,
    field.mulLoop n p a (b ^^^ c)
      = field.mulLoop n p a b ^^^ field.mulLoop n 0 a c := by
  induction n with
  | zero => intro p a b c; simp [field.mulLoop]
  | succ n ih =>
    intro p a b c
    simp only [mulLoop_succ, shr1_xor, ih, Nat.and_xor_distrib_right]
    rcases and_1_cases b with hb | hb <;> rcases and_1_cases c with hc | hc <;>
      simp only [hb, hc] <;> simp
    · rw [mulLoop_acc n (p ^^^ a), mulLoop_acc n p, mulLoop_acc n a]
      simp [Nat.xor_assoc, Nat.xor_comm, nat_xor_left_comm, nat_xor_self_left]
    · rw [mulLoop_acc n (p ^^^ a), mulLoop_acc n p, mulLoop_acc n a]
      simp [Nat.xor_assoc, Nat.xor_comm, nat_xor_left_comm, nat_xor_self_left]

theorem gf_mul_mod_left (a b : Nat) : field.mul (a % 256) b = field.mul a b := by
  simp [field.mul]

theorem gf_mul_mod_right (a b : Nat) : field.mul a (b % 256) = field.mul a b := by
  simp [field.mul]

theorem gf_mul_xor_left (a c b : Nat) :
    field.mul (a ^^^ c) b = field.mul a b ^^^ field.mul c b := by
  unfold field.mul
  rw [xor_mod_256, ← mulLoop_xor_left, Nat.xor_self]

theorem gf_mul_xor_right (a b c : Nat) :
    field.mul a (b ^^^ c) = field.mul a b ^^^ field.mul a c := by
  unfold field.mul
  rw [xor_mod_256, mulLoop_xor_right]

/-! ## Commutativity and associativity, from the eight unit bytes -/

set_option maxRecDepth 100000 in
theorem byte_decomp : ∀ a < 256,
    a = (a &&& 1) ^^^ ((a &&& 2) ^^^ ((a &&& 4) ^^^ ((a &&& 8) ^^^ ((a &&& 16) ^^^
      ((a &&& 32) ^^^ ((a &&& 64) ^^^ (a &&& 128))))))) := by
  decide!

/-- Two XOR-additive maps that agree on the eight unit bytes agree on every byte. -/
theorem additive_ext (f g : Nat → Nat)
    (hf : ∀ a b, f (a ^^^ b) = f a ^^^ f b) (hg : ∀ a b, g (a ^^^ b) = g a ^^^ g b)
    (h : ∀ i < 8, f (2 ^ i) = g (2 ^ i)) (a : Nat) (ha : a < 256) : f a = g a := by
  have f0 : f 0 = 0 := by
    have := hf 0 0
    simpa using this
  have g0 : g 0 = 0 := by
    have := hg 0 0
    simpa using this
  have key : ∀ i < 8, f (a &&& 2 ^ i) = g (a &&& 2 ^ i) := by
    intro i hi
    rcases and_pow_cases a i with h0 | h1
    · rw [h0, f0, g0]
    · rw [h1]; exact h i hi
  have k0 : f (a &&& 1) = g (a &&& 1) := key 0 (by norm_num)
  have k1 : f (a &&& 2) = g (a &&& 2) := key 1 (by norm_num)
  have k2 : f (a &&& 4) = g (a &&& 4) := key 2 (by norm_num)
  have k3 : f (a &&& 8) = g (a &&& 8) := key 3 (by norm_num)
  have k4 : f (a &&& 16) = g (a &&& 16) := key 4 (by norm_num)
  have k5 : f (a &&& 32) = g (a &&& 32) := key 5 (by norm_num)
  have k6 : f (a &&& 64) = g (a &&& 64) := key 6 (by norm_num)
  have k7 : f (a &&& 128) = g (a &&& 128) := key 7 (by norm_num)
  rw [byte_decomp a ha]
  simp only [hf, hg]
  rw [k0, k1, k2, k3, k4, k5, k6, k7]

theorem gf_mul_comm_basis :
    ∀ i < 8, ∀ j < 8, field.mul (2 ^ i) (2 ^ j) = field.mul (2 ^ j) (2 ^ i) := by
  decide!

theorem gf_mul_comm_lt (a b : Nat) (ha : a < 256) (hb : b < 256) :
    field.mul a b = field.mul b a := by
  refine additive_ext (fun x => field.mul x b) (fun x => field.mul b x)
    (fun x y => gf_mul_xor_left x y b) (fun x y => gf_mul_xor_right b x y) ?_ a ha
  intro i hi
  exact additive_ext (fun y => field.mul (2 ^ i) y) (fun y => field.mul y (2 ^ i))
    (fun x y => gf_mul_xor_right _ x y) (fun x y => gf_mul_xor_left x y _)
    (fun j hj => gf_mul_comm_basis i hi j hj) b hb

theorem gf_mul_comm (a b : Nat) : field.mul a b = field.mul b a := by
  rw [← gf_mul_mod_left a, ← gf_mul_mod_right _ b, ← gf_mul_mod_left b,
    ← gf_mul_mod_right _ a]
  exact gf_mul_comm_lt _ _ (Nat.mod_lt _ (by norm_num)) (Nat.mod_lt _ (by norm_num))

theorem gf_mul_assoc_basis : ∀ i < 8, ∀ j < 8, ∀ k < 8,
    field.mul (field.mul (2 ^ i) (2 ^ j)) (2 ^ k)
      = field.mul (2 ^ i) (field.mul (2 ^ j) (2 ^ k)) := by
  decide!

theorem gf_mul_assoc_lt (a b c : Nat) (ha : a < 256) (hb : b < 256) (hc : c < 256) :
    field.mul (field.mul a b) c = field.mul a (field.mul b c) := by
  refine additive_ext (fun x => field.mul (field.mul x b) c)
    (fun x => field.mul x (field.mul b c))
    (fun x y => by simp only [gf_mul_xor_left])
    (fun x y => by simp only [gf_mul_xor_left]) ?_ a ha
  intro i hi
  refine additive_ext (fun x => field.mul (field.mul (2 ^ i) x) c)
    (fun x => field.mul (2 ^ i) (field.mul x c))
    (fun x y => by simp only [gf_mul_xor_left, gf_mul_xor_right])
    (fun x y => by simp only [gf_mul_xor_left, gf_mul_xor_right]) ?_ b hb
  intro j hj
  exact additive_ext (fun x => field.mul (field.mul (2 ^ i) (2 ^ j)) x)
    (fun x => field.mul (2 ^ i) (field.mul (2 ^ j) x))
    (fun x y => by simp only [gf_mul_xor_left, gf_mul_xor_right])
    (fun x y => by simp only [gf_mul_xor_left, gf_mul_xor_right])
    (fun k hk => gf_mul_assoc_basis i hi j hj k hk) c hc

theorem gf_mul_assoc (a b c : Nat) :
    field.mul (field.mul a b) c = field.mul a (field.mul b c) := by
  have h := gf_mul_assoc_lt (a % 256) (b % 256) (c % 256) (Nat.mod_lt _ (by norm_num))
    (Nat.mod_lt _ (by norm_num)) (Nat.mod_lt _ (by norm_num))
  simpa only [gf_mul_mod_left, gf_mul_mod_right] using h

set_option maxRecDepth 100000 in
theorem gf_mul_one_lt : ∀ a < 256, field.mul a 1 = a := by
  decide!

theorem gf_mul_one (a : Nat) : field.mul a 1 = a % 256 := by
  rw [← gf_mul_mod_left]
  exact gf_mul_one_lt _ (Nat.mod_lt _ (by norm_num))

theorem gf_one_mul (a : Nat) : field.mul 1 a = a % 256 := by
  rw [gf_mul_comm, gf_mul_one]

theorem gf_mul_zero (a : Nat) : field.mul a 0 = 0 := by
  have h := gf_mul_xor_right a 0 0
  simpa using h

theorem gf_zero_mul (a : Nat) : field.mul 0 a = 0 := by
  rw [gf_mul_comm, gf_mul_zero]

/-! ## The 254th power computed by `field::div` is the inverse -/

theorem invLoop_lt (n : Nat) : ∀ acc b, acc < 256 → field.invLoop n acc b < 256 := by
  induction n with
  | zero => intro acc b h; exact h
  | succ n ih => intro acc b _; exact ih _ _ (gf_mul_lt _ _)

theorem invLoop_mul (n : Nat) : ∀ x y b,
    field.invLoop n (field.mul x y) b = field.mul x (field.invLoop n y b) := by
  induction n with
  | zero => intro x y b; rfl
  | succ n ih =>
    intro x y b
    simp only [field.invLoop]
    rw [gf_mul_assoc, ih]

theorem invLoop_add (m : Nat) : ∀ n acc b,
    field.invLoop (m + n) acc b = field.invLoop n (field.invLoop m acc b) b := by
  induction m with
  | zero => intro n acc b; simp [field.invLoop]
  | succ m ih =>
    intro n acc b
    rw [Nat.add_right_comm]
    simp only [field.invLoop]
    rw [ih]

theorem gpow_lt (b n : Nat) : gpow b n < 256 := invLoop_lt n 1 b (by norm_num)

theorem gpow_add (b m n : Nat) : gpow b (m + n) = field.mul (gpow b m) (gpow b n) := by
  unfold gpow
  rw [invLoop_add, ← invLoop_mul, gf_mul_one, Nat.mod_eq_of_lt (invLoop_lt m 1 b (by norm_num))]

set_option maxRecDepth 100000 in
theorem inv254_spec : ∀ b < 256, b ≠ 0 → field.mul b (inv254 b) = 1 := by
  decide!

theorem gpow_two_mul (b n : Nat) : gpow b (2 * n) = sqr (gpow b n) := by
  rw [two_mul, gpow_add, sqr]

theorem gpow_one (b : Nat) : gpow b 1 = b % 256 := by
  simp [gpow, field.invLoop, gf_one_mul]

theorem gpow_254 (b : Nat) : gpow b 254 = inv254 b := by
  have h2 : gpow b 2 = sqr b := by
    rw [show 2 = 2 * 1 from rfl, gpow_two_mul, gpow_one, sqr, sqr, gf_mul_mod_left,
      gf_mul_mod_right]
  have h4 : gpow b 4 = sqr (sqr b) := by rw [show 4 = 2 * 2 from rfl, gpow_two_mul, h2]
  have h8 : gpow b 8 = sqr (sqr (sqr b)) := by
    rw [show 8 = 2 * 4 from rfl, gpow_two_mul, h4]
  have h16 : gpow b 16 = sqr (sqr (sqr (sqr b))) := by
    rw [show 16 = 2 * 8 from rfl, gpow_two_mul, h8]
  have h32 : gpow b 32 = sqr (sqr (sqr (sqr (sqr b)))) := by
    rw [show 32 = 2 * 16 from rfl, gpow_two_mul, h16]
  have h64 : gpow b 64 = sqr (sqr (sqr (sqr (sqr (sqr b))))) := by
    rw [show 64 = 2 * 32 from rfl, gpow_two_mul, h32]
  have h128 : gpow b 128 = sqr (sqr (sqr (sqr (sqr (sqr (sqr b)))))) := by
    rw [show 128 = 2 * 64 from rfl, gpow_two_mul, h64]
  rw [show 254 = 2 + (4 + (8 + (16 + (32 + (64 + 128))))) from rfl]
  simp only [gpow_add, h2, h4, h8, h16, h32, h64, h128]
  rfl

theorem gf_mul_inv (b : Nat) (hb : b % 256 ≠ 0) :
    field.mul b (field.invLoop 254 1 b) = 1 := by
  have h := inv254_spec (b % 256) (Nat.mod_lt _ (by norm_num)) hb
  rw [gf_mul_mod_left] at h
  have e : field.invLoop 254 1 b = gpow b 254 := rfl
  rw [e, gpow_254]
  have e2 : inv254 (b % 256) = inv254 b := by
    simp only [inv254, sqr, gf_mul_mod_left, gf_mul_mod_right]
  rw [← e2]
  exact h

/- The 254 iterations are never unfolded by the elaborator from here on. -/
attribute [irreducible] field.invLoop

/-! ## Bytes as the field GF(256) -/

/-- A byte read as an element of GF(256): addition is XOR, multiplication is `field::mul`. -/
structure GF256 where
  /-- The byte. -/
  val : Nat
  /-- It is a byte. -/
  isLt : val < 256
  deriving DecidableEq

namespace GF256

theorem eq_of_val {a b : GF256} (h : a.val = b.val) : a = b := by
  cases a; cases b; cases h; rfl

/-- The field element of a natural number, reduced to a byte. -/
def ofNat (n : Nat) : GF256 := ⟨n % 256, Nat.mod_lt _ (by norm_num)⟩

instance : Zero GF256 := ⟨ofNat 0⟩

instance : One GF256 := ⟨ofNat 1⟩

instance : Add GF256 := ⟨fun a b => ⟨a.val ^^^ b.val, xor_lt_256 a.isLt b.isLt⟩⟩

instance : Neg GF256 := ⟨fun a => a⟩

instance : Mul GF256 := ⟨fun a b => ⟨field.mul a.val b.val, gf_mul_lt _ _⟩⟩

instance : Inv GF256 :=
  ⟨fun a => ⟨field.invLoop 254 1 a.val, invLoop_lt _ _ _ (by norm_num)⟩⟩

theorem val_zero : (0 : GF256).val = 0 := rfl

theorem val_one : (1 : GF256).val = 1 := rfl

theorem val_add (a b : GF256) : (a + b).val = a.val ^^^ b.val := rfl

theorem val_neg (a : GF256) : (-a).val = a.val := rfl

theorem val_mul (a b : GF256) : (a * b).val = field.mul a.val b.val := rfl

theorem val_inv (a : GF256) : (a⁻¹).val = field.invLoop 254 1 a.val := rfl

theorem ne_zero_val {a : GF256} (h : a ≠ 0) : a.val % 256 ≠ 0 := by
  intro h0
  apply h
  apply eq_of_val
  rw [val_zero, ← Nat.mod_eq_of_lt a.isLt]
  exact h0

instance : Field GF256 :=
  Field.ofMinimalAxioms GF256
    (fun a b c => eq_of_val (by simp only [val_add, Nat.xor_assoc]))
    (fun a => eq_of_val (by simp only [val_add, val_zero, Nat.zero_xor]))
    (fun a => eq_of_val (by simp only [val_add, val_neg, val_zero, Nat.xor_self]))
    (fun a b c => eq_of_val (by simp only [val_mul, gf_mul_assoc]))
    (fun a b => eq_of_val (by simp only [val_mul]; exact gf_mul_comm _ _))
    (fun a => eq_of_val (by
      simp only [val_mul, val_one, gf_one_mul]; exact Nat.mod_eq_of_lt a.isLt))
    (fun a h => eq_of_val (by
      simp only [val_mul, val_inv, val_one]; exact gf_mul_inv _ (ne_zero_val h)))
    (eq_of_val (by
      simp only [val_inv, val_zero]
      have h : ∀ n, field.invLoop n 0 0 = 0 := by
        intro n
        induction n with
        | zero => simp only [field.invLoop]
        | succ n ih => simp only [field.invLoop, gf_mul_zero]; exact ih
      have h1 : field.invLoop 254 1 0 = field.invLoop 253 0 0 := by
        simp only [field.invLoop, gf_mul_zero]
      rw [h1, h]))
    (fun a b c => eq_of_val (by simp only [val_mul, val_add, gf_mul_xor_right]))
    ⟨0, 1, fun h => by
      have := congrArg GF256.val h
      simp [val_zero, val_one] at this⟩

end GF256

theorem ofNat_val (n : Nat) : (GF256.ofNat n).val = n % 256 := rfl

theorem ofNat_mod (n : Nat) : GF256.ofNat (n % 256) = GF256.ofNat n :=
  GF256.eq_of_val (by simp [ofNat_val])

theorem ofNat_zero : GF256.ofNat 0 = 0 := rfl

theorem ofNat_one : GF256.ofNat 1 = 1 := rfl

theorem ofNat_xor (a b : Nat) : GF256.ofNat (a ^^^ b) = GF256.ofNat a + GF256.ofNat b :=
  GF256.eq_of_val (by simp only [ofNat_val, GF256.val_add, xor_mod_256])

theorem ofNat_mul (a b : Nat) :
    GF256.ofNat (field.mul a b) = GF256.ofNat a * GF256.ofNat b :=
  GF256.eq_of_val (by
    simp only [ofNat_val, GF256.val_mul, gf_mul_mod_left, gf_mul_mod_right]
    exact Nat.mod_eq_of_lt (gf_mul_lt _ _))

theorem invLoop_mod (n : Nat) : ∀ acc b,
    field.invLoop n acc (b % 256) = field.invLoop n acc b := by
  induction n with
  | zero => intro acc b; simp only [field.invLoop]
  | succ n ih => intro acc b; simp only [field.invLoop, gf_mul_mod_right, ih]

theorem ofNat_inv (b : Nat) :
    GF256.ofNat (field.invLoop 254 1 b) = (GF256.ofNat b)⁻¹ :=
  GF256.eq_of_val (by
    simp only [ofNat_val, GF256.val_inv, invLoop_mod]
    exact Nat.mod_eq_of_lt (invLoop_lt _ _ _ (by norm_num)))

theorem ofNat_eq_zero_iff (b : Nat) : GF256.ofNat b = 0 ↔ b % 256 = 0 := by
  constructor
  · intro h
    have := congrArg GF256.val h
    simpa [ofNat_val, GF256.val_zero] using this
  · intro h
    exact GF256.eq_of_val (by simp [ofNat_val, GF256.val_zero, h])

theorem ofNat_injOn {a b : Nat} (ha : a < 256) (hb : b < 256)
    (h : GF256.ofNat a = GF256.ofNat b) : a = b := by
  have := congrArg GF256.val h
  simpa [ofNat_val, Nat.mod_eq_of_lt ha, Nat.mod_eq_of_lt hb] using this

theorem ofNat_eq_iff (a b : Nat) : GF256.ofNat a = GF256.ofNat b ↔ a % 256 = b % 256 := by
  constructor
  · intro h
    exact congrArg GF256.val h
  · intro h
    exact GF256.eq_of_val h

theorem gf_add_self (a : GF256) : a + a = 0 :=
  GF256.eq_of_val (by simp only [GF256.val_add, GF256.val_zero, Nat.xor_self])

theorem gf_neg_eq (a : GF256) : -a = a := rfl

theorem gf_sub_eq_add (a b : GF256) : a - b = a + b := by
  rw [sub_eq_add_neg, gf_neg_eq]

/-- The call `field::div` returns the quotient in GF(256) when the divisor is not the zero
byte. -/
theorem div_ok (a b : Nat) (hb : GF256.ofNat b ≠ 0) :
    field.div a b = Except.ok (field.mul a (field.invLoop 254 1 b)) := by
  unfold field.div
  rw [if_neg (fun h => hb ((ofNat_eq_zero_iff b).2 h))]
  rfl

theorem div_error (a b : Nat) (hb : GF256.ofNat b = 0) :
    field.div a b = Except.error (Exn.invalid_argument "Division by zero") := by
  unfold field.div
  rw [if_pos ((ofNat_eq_zero_iff b).1 hb)]
  rfl

theorem ofNat_div_value (a b : Nat) :
    GF256.ofNat (field.mul a (field.invLoop 254 1 b)) = GF256.ofNat a / GF256.ofNat b := by
  rw [ofNat_mul, ofNat_inv, div_eq_mul_inv]

/-! ## `evaluatePolynomial` evaluates a polynomial over GF(256) -/

theorem evalLoop_lt (x : Nat) (c : List Nat) :
    ∀ result x_pow, result < 256 → evalLoop x c result x_pow < 256 := by
  induction c with
  | nil => intro r xp hr; exact hr
  | cons a rest ih =>
    intro r xp hr
    exact ih _ _ (xor_lt_256 hr (gf_mul_lt _ _))

theorem evaluatePolynomial_lt (c : List Nat) (x : Nat) : evaluatePolynomial c x < 256 :=
  evalLoop_lt x c 0 1 (by norm_num)

theorem evalLoop_poly (c : List Nat) :
    ∃ p : Polynomial GF256, p.degree < c.length ∧
      ∀ x result x_pow, GF256.ofNat (evalLoop x c result x_pow)
        = GF256.ofNat result + GF256.ofNat x_pow * p.eval (GF256.ofNat x) := by
  induction c with
  | nil =>
    refine ⟨0, ?_, ?_⟩
    · simp
    · intro x r xp
      simp [evalLoop]
  | cons a rest ih =>
    obtain ⟨q, hq, hev⟩ := ih
    refine ⟨Polynomial.C (GF256.ofNat a) + Polynomial.X * q, ?_, ?_⟩
    · rw [Polynomial.degree_lt_iff_coeff_zero] at hq ⊢
      intro m hm
      simp only [List.length_cons] at hm
      obtain ⟨k, rfl⟩ : ∃ k, m = k + 1 := ⟨m - 1, by omega⟩
      rw [Polynomial.coeff_add, Polynomial.coeff_C_succ, Polynomial.coeff_X_mul, zero_add]
      exact hq k (by omega)
    · intro x r xp
      simp only [evalLoop]
      rw [hev, ofNat_xor, ofNat_mul, ofNat_mul]
      simp only [Polynomial.eval_add, Polynomial.eval_C, Polynomial.eval_mul,
        Polynomial.eval_X]
      ring

/-- The values of `evaluatePolynomial` on a coefficient list are the values of one
polynomial over GF(256) of degree below the number of coefficients. -/
theorem evaluatePolynomial_poly (c : List Nat) :
    ∃ p : Polynomial GF256, p.degree < c.length ∧
      ∀ x, GF256.ofNat (evaluatePolynomial c x) = p.eval (GF256.ofNat x) := by
  obtain ⟨p, hp, hev⟩ := evalLoop_poly c
  refine ⟨p, hp, fun x => ?_⟩
  unfold evaluatePolynomial
  rw [hev, ofNat_zero, ofNat_one, zero_add, one_mul]

theorem evalLoop_zero_pow (c : List Nat) :
    ∀ result, evalLoop 0 c result 0 = result := by
  induction c with
  | nil => intro r; rfl
  | cons a rest ih =>
    intro r
    simp only [evalLoop, gf_mul_zero, Nat.xor_zero]
    exact ih r

/-- At `x = 0` the polynomial value is the constant coefficient. -/
theorem evaluatePolynomial_zero (a : Nat) (rest : List Nat) :
    evaluatePolynomial (a :: rest) 0 = a % 256 := by
  simp only [evaluatePolynomial, evalLoop, gf_mul_zero, gf_mul_one, Nat.zero_xor]
  exact evalLoop_zero_pow rest _

/-! ## `interpolate` is Lagrange interpolation over GF(256) -/

theorem readAt_ok {α : Type} (v : List α) (i : Nat) (h : i < v.length) :
    readAt v i = Except.ok (v.get ⟨i, h⟩) := by
  simp [readAt, List.getElem?_eq_getElem h]
  rfl

theorem readAt_error {α : Type} (v : List α) (i : Nat) (h : v.length ≤ i) :
    readAt v i = Except.error Exn.out_of_bounds := by
  simp [readAt, List.getElem?_eq_none h]
  rfl

theorem readAt_getD {α : Type} (v : List α) (i : Nat) (d : α) (h : i < v.length) :
    readAt v i = Except.ok (v.getD i d) := by
  rw [readAt_ok v i h]
  simp [List.getD_eq_getElem?_getD, List.getElem?_eq_getElem h]

/-- The factor that `interpolate` multiplies into term `i` at index `j`. -/
def lagrangeFactor (xs : List Nat) (x i j : Nat) : GF256 :=
  if i = j then 1
  else (GF256.ofNat x - GF256.ofNat (xs.getD j 0))
    / (GF256.ofNat (xs.getD i 0) - GF256.ofNat (xs.getD j 0))

theorem interpolateStep_ok (xs : List Nat) (x i term j : Nat)
    (h : j ≠ i → GF256.ofNat (xs.getD i 0) ≠ GF256.ofNat (xs.getD j 0)) :
    ∃ t, interpolateStep xs x i term j = Except.ok t ∧
      GF256.ofNat t = GF256.ofNat term * lagrangeFactor xs x i j ∧
      (t < 256 ∨ (t = term ∧ j = i)) := by
  unfold interpolateStep lagrangeFactor
  by_cases hij : i = j
  · subst hij
    simp
    exact ⟨term, rfl, rfl, Or.inr rfl⟩
  · have hne : GF256.ofNat (xs.getD i 0 ^^^ xs.getD j 0) ≠ 0 := by
      rw [ofNat_xor, ← gf_sub_eq_add]
      exact sub_ne_zero.2 (h (fun e => hij e.symm))
    rw [if_pos hij, if_neg hij]
    dsimp only
    rw [div_ok _ _ hne]
    refine ⟨_, rfl, ?_, Or.inl (gf_mul_lt _ _)⟩
    rw [ofNat_mul, ofNat_div_value, ofNat_xor, ofNat_xor, gf_sub_eq_add, gf_sub_eq_add]

theorem interpolate_inner (xs : List Nat) (x i : Nat) (js : List Nat)
    (h : ∀ j ∈ js, j ≠ i → GF256.ofNat (xs.getD i 0) ≠ GF256.ofNat (xs.getD j 0)) :
    ∀ term, ∃ t, List.foldlM (interpolateStep xs x i) term js = Except.ok t ∧
      GF256.ofNat t = GF256.ofNat term * (js.map (lagrangeFactor xs x i)).prod ∧
      (t < 256 ∨ (t = term ∧ ∀ j ∈ js, j = i)) := by
  induction js with
  | nil => intro term; exact ⟨term, rfl, by simp, Or.inr ⟨rfl, by simp⟩⟩
  | cons j js ih =>
    intro term
    obtain ⟨t1, h1, e1, b1⟩ :=
      interpolateStep_ok xs x i term j (h j (List.mem_cons_self _ _))
    obtain ⟨t2, h2, e2, b2⟩ := ih (fun j' hj' => h j' (List.mem_cons_of_mem _ hj')) t1
    refine ⟨t2, ?_, ?_, ?_⟩
    · rw [List.foldlM_cons, h1]
      exact h2
    · rw [e2, e1, List.map_cons, List.prod_cons, mul_assoc]
    · rcases b2 with b2 | ⟨e, hall⟩
      · exact Or.inl b2
      · rcases b1 with b1 | ⟨e', hj⟩
        · exact Or.inl (e ▸ b1)
        · refine Or.inr ⟨e.trans e', ?_⟩
          intro j' hj'
          rcases List.mem_cons.1 hj' with rfl | hm
          · exact hj
          · exact hall j' hm

theorem interpolateTerm_ok (xs ys : List Nat) (x result i : Nat) (hi : i < ys.length)
    (h : ∀ j < xs.length, j ≠ i → GF256.ofNat (xs.getD i 0) ≠ GF256.ofNat (xs.getD j 0)) :
    ∃ r, interpolateTerm xs ys x result i = Except.ok r ∧
      GF256.ofNat r = GF256.ofNat result + GF256.ofNat (ys.getD i 0)
        * ((List.range xs.length).map (lagrangeFactor xs x i)).prod ∧
      (result < 256 → (2 ≤ xs.length ∨ ys.getD i 0 < 256) → r < 256) := by
  obtain ⟨t, ht, et, bt⟩ := interpolate_inner xs x i (List.range xs.length)
    (fun j hj => h j (List.mem_range.1 hj)) (ys.getD i 0)
  refine ⟨result ^^^ t, ?_, ?_, ?_⟩
  · unfold interpolateTerm
    rw [readAt_getD ys i 0 hi]
    simp only [Except.bind, bind, ht]
    rfl
  · rw [ofNat_xor, et]
  · intro hr hb
    apply xor_lt_256 hr
    rcases bt with bt | ⟨e, hall⟩
    · exact bt
    · rcases hb with hb | hb
      · exfalso
        have h0 := hall 0 (List.mem_range.2 (by omega))
        have h1 := hall 1 (List.mem_range.2 (by omega))
        omega
      · rw [e]; exact hb

theorem interpolate_outer (xs ys : List Nat) (x : Nat) (is : List Nat)
    (h : ∀ i ∈ is, i < ys.length ∧
      ∀ j < xs.length, j ≠ i → GF256.ofNat (xs.getD i 0) ≠ GF256.ofNat (xs.getD j 0)) :
    ∀ result, ∃ r, List.foldlM (interpolateTerm xs ys x) result is = Except.ok r ∧
      GF256.ofNat r = GF256.ofNat result + (is.map (fun i => GF256.ofNat (ys.getD i 0)
        * ((List.range xs.length).map (lagrangeFactor xs x i)).prod)).sum ∧
      (result < 256 → (2 ≤ xs.length ∨ ∀ i ∈ is, ys.getD i 0 < 256) → r < 256) := by
  induction is with
  | nil => intro result; exact ⟨result, rfl, by simp, fun hr _ => hr⟩
  | cons i is ih =>
    intro result
    obtain ⟨hi, hne⟩ := h i (List.mem_cons_self _ _)
    obtain ⟨r1, h1, e1, b1⟩ := interpolateTerm_ok xs ys x result i hi hne
    obtain ⟨r2, h2, e2, b2⟩ := ih (fun j' hj' => h j' (List.mem_cons_of_mem _ hj')) r1
    refine ⟨r2, ?_, ?_, ?_⟩
    · rw [List.foldlM_cons, h1]
      exact h2
    · rw [e2, e1, List.map_cons, List.sum_cons, add_assoc]
    · intro hr hb
      apply b2
      · apply b1 hr
        rcases hb with hb | hb
        · exact Or.inl hb
        · exact Or.inr (hb i (List.mem_cons_self _ _))
      · rcases hb with hb | hb
        · exact Or.inl hb
        · exact Or.inr (fun i' hi' => hb i' (List.mem_cons_of_mem _ hi'))

theorem list_range_prod {M : Type} [CommMonoid M] (f : Nat → M) (n : Nat) :
    ((List.range n).map f).prod = ∏ i in Finset.range n, f i := by
  induction n with
  | zero => simp
  | succ n ih =>
    rw [List.range_succ, List.map_append, List.prod_append, ih, Finset.prod_range_succ]
    simp

theorem list_range_sum {M : Type} [AddCommMonoid M] (f : Nat → M) (n : Nat) :
    ((List.range n).map f).sum = ∑ i in Finset.range n, f i := by
  induction n with
  | zero => simp
  | succ n ih =>
    rw [List.range_succ, List.map_append, List.sum_append, ih, Finset.sum_range_succ]
    simp

theorem DistinctBytes.injOn {xs : List Nat} (h : DistinctBytes xs) :
    Set.InjOn (fun i => GF256.ofNat (xs.getD i 0)) (Finset.range xs.length : Set Nat) := by
  intro i hi j hj hij
  by_contra hne
  simp only [Finset.coe_range, Set.mem_Iio] at hi hj
  exact h i hi j hj hne ((ofNat_eq_iff _ _).1 hij)

theorem lagrangeFactor_prod (xs : List Nat) (x i : Nat) (s : Finset Nat) :
    ∏ j in s, lagrangeFactor xs x i j
      = Polynomial.eval (GF256.ofNat x)
          (Lagrange.basis s (fun k => GF256.ofNat (xs.getD k 0)) i) := by
  rw [Lagrange.basis, Polynomial.eval_prod]
  rw [← Finset.prod_erase s (a := i) (by simp [lagrangeFactor])]
  refine Finset.prod_congr rfl (fun j hj => ?_)
  have hji : i ≠ j := fun e => (Finset.mem_erase.1 hj).1 e.symm
  simp only [lagrangeFactor, if_neg hji, Lagrange.basisDivisor, Polynomial.eval_mul,
    Polynomial.eval_C, Polynomial.eval_sub, Polynomial.eval_X]
  rw [div_eq_mul_inv, mul_comm]

/-- The call `interpolate` succeeds on pairwise different x-coordinates and returns the
value at `x` of the Lagrange interpolation polynomial through the given points. -/
theorem interpolate_ok (xs ys : List Nat) (x : Nat) (hlen : xs.length ≤ ys.length)
    (hd : DistinctBytes xs) :
    ∃ r, interpolate xs ys x = Except.ok r ∧
      GF256.ofNat r = Polynomial.eval (GF256.ofNat x)
        (Lagrange.interpolate (Finset.range xs.length)
          (fun k => GF256.ofNat (xs.getD k 0)) (fun k => GF256.ofNat (ys.getD k 0))) ∧
      ((2 ≤ xs.length ∨ ∀ k < xs.length, ys.getD k 0 < 256) → r < 256) := by
  obtain ⟨r, hr, er, br⟩ := interpolate_outer xs ys x (List.range xs.length) (by
    intro i hi
    have hi' := List.mem_range.1 hi
    refine ⟨by omega, fun j hj hji => ?_⟩
    intro e
    exact hd i hi' j hj (fun e' => hji e'.symm) ((ofNat_eq_iff _ _).1 e)) 0
  refine ⟨r, hr, ?_, ?_⟩
  · rw [er, ofNat_zero, zero_add, list_range_sum, Lagrange.interpolate_apply,
      Polynomial.eval_finset_sum]
    refine Finset.sum_congr rfl (fun i _ => ?_)
    rw [list_range_prod, lagrangeFactor_prod, Polynomial.eval_mul, Polynomial.eval_C]
  · intro hb
    apply br (by norm_num)
    rcases hb with hb | hb
    · exact Or.inl hb
    · exact Or.inr (fun i hi => hb i (List.mem_range.1 hi))

/-- Interpolating the values of a polynomial of degree below the number of points gives
back the values of that polynomial. -/
theorem interpolate_poly (xs ys : List Nat) (x : Nat) (hlen : xs.length ≤ ys.length)
    (hd : DistinctBytes xs) (p : Polynomial GF256) (hp : p.degree < xs.length)
    (hv : ∀ k < xs.length, GF256.ofNat (ys.getD k 0) = p.eval (GF256.ofNat (xs.getD k 0))) :
    ∃ r, interpolate xs ys x = Except.ok r ∧ GF256.ofNat r = p.eval (GF256.ofNat x) ∧
      ((2 ≤ xs.length ∨ ∀ k < xs.length, ys.getD k 0 < 256) → r < 256) := by
  obtain ⟨r, hr, er, br⟩ := interpolate_ok xs ys x hlen hd
  refine ⟨r, hr, ?_, br⟩
  rw [er]
  have := Lagrange.eq_interpolate_of_eval_eq (s := Finset.range xs.length)
    (v := fun k => GF256.ofNat (xs.getD k 0)) (r := fun k => GF256.ofNat (ys.getD k 0))
    (f := p) hd.injOn (by simpa using hp) (fun i hi => (hv i (Finset.mem_range.1 hi)).symm)
  rw [← this]

/-! ## Loops that fill a vector -/

theorem foldl_range_succ {σ : Type} (step : σ → Nat → σ) (init : σ) (n : Nat) :
    List.foldl step init (List.range (n + 1))
      = step (List.foldl step init (List.range n)) n := by
  rw [List.range_succ, List.foldl_append]
  rfl

/-- A loop `for k in 0..n: v[k] = g k v[k]` rewrites every entry once. -/
theorem foldl_set_range {α : Type} (g : Nat → α → α) (d : α) (l : List α) (n : Nat) :
    List.foldl (fun acc k => acc.set k (g k (acc.getD k d))) l (List.range n)
      = (List.range l.length).map (fun i => if i < n then g i (l.getD i d) else l.getD i d) := by
  induction n with
  | zero =>
    apply List.ext_getElem
    · simp
    · intro i h1 h2
      have hi : i < l.length := by simpa using h2
      simp [List.getElem?_eq_getElem hi]
  | succ n ih =>
    rw [foldl_range_succ, ih]
    apply List.ext_getElem
    · simp
    · intro i h1 h2
      have hi : i < l.length := by simpa using h2
      simp only [List.getElem_set, List.getElem_map, List.getElem_range]
      by_cases hin : n = i
      · subst hin
        simp [hi, List.getElem?_eq_getElem hi]
      · simp only [hin, if_false]
        by_cases h1 : i < n
        · simp [h1, Nat.lt_succ_of_lt h1]
        · have : ¬ i < n + 1 := by omega
          simp [h1, this]

/-! ## What `splitSecret` computes -/

theorem coeffLoop_spec (rand : Nat → Nat) (n : Nat) : ∀ (pre : List Nat) (k : Nat),
    List.foldl (coeffStep rand) (pre ++ List.replicate n 0, k) (List.range' pre.length n)
      = (pre ++ (List.range n).map (fun u => rand (k + u) % 256), k + n) := by
  induction n with
  | zero => intro pre k; simp
  | succ n ih =>
    intro pre k
    rw [List.range'_succ, List.foldl_cons]
    have h1 : coeffStep rand (pre ++ List.replicate (n + 1) 0, k) pre.length
        = ((pre ++ [rand k % 256]) ++ List.replicate n 0, k + 1) := by
      simp [coeffStep, List.replicate_succ]
    have h2 : pre.length + 1 = (pre ++ [rand k % 256]).length := by simp
    rw [h1, h2, ih]
    rw [List.range_succ_eq_map, List.map_cons, List.map_map]
    simp only [List.append_assoc, List.singleton_append, Nat.add_zero, Prod.mk.injEq]
    refine ⟨?_, by omega⟩
    congr 2
    apply List.map_congr_left
    intro u _
    simp only [Function.comp, Nat.succ_eq_add_one]
    congr 2
    omega

theorem coeffLoop_split (rand : Nat → Nat) (secret : List Nat) (t b : Nat) (ht : 1 ≤ t) :
    List.foldl (coeffStep rand)
        ((List.replicate t 0).set 0 (secret.getD b 0), b * (t - 1)) (List.range' 1 (t - 1))
      = (splitCoefficients rand secret t b, (b + 1) * (t - 1)) := by
  obtain ⟨m, rfl⟩ : ∃ m, t = m + 1 := ⟨t - 1, by omega⟩
  have h := coeffLoop_spec rand m [secret.getD b 0] (b * m)
  simp only [List.length_singleton, List.singleton_append] at h
  simp only [Nat.add_sub_cancel, List.replicate_succ, List.set_cons_zero]
  rw [h, splitCoefficients]
  simp only [Nat.add_sub_cancel, Prod.mk.injEq, true_and]
  ring

theorem shareLoop_spec (L b : Nat) (c : List Nat) (shares : List (List Nat)) :
    List.foldl (shareStep L b c) shares (List.range shares.length)
      = (List.range shares.length).map (fun k =>
          (if b = 0 then (resize (shares.getD k []) (L + 1)).set 0 ((k + 1) % 256)
            else shares.getD k []).set (b + 1) (evaluatePolynomial c ((k + 1) % 256))) := by
  have h := foldl_set_range (fun k sh =>
    (if b = 0 then (resize sh (L + 1)).set 0 ((k + 1) % 256) else sh).set (b + 1)
      (evaluatePolynomial c ((k + 1) % 256))) [] shares shares.length
  have e : (fun acc k => acc.set k ((fun k sh =>
      (if b = 0 then (resize sh (L + 1)).set 0 ((k + 1) % 256) else sh).set (b + 1)
        (evaluatePolynomial c ((k + 1) % 256))) k (acc.getD k []))) = shareStep L b c := by
    funext acc k
    rfl
  rw [e] at h
  rw [h]
  apply List.map_congr_left
  intro k hk
  rw [if_pos (List.mem_range.1 hk)]

theorem shareAfter_first (rand : Nat → Nat) (secret : List Nat) (t L k : Nat) :
    ((resize [] (L + 1)).set 0 ((k + 1) % 256)).set 1
        (evaluatePolynomial (splitCoefficients rand secret t 0) ((k + 1) % 256))
      = shareAfter rand secret t L 1 k := by
  apply List.ext_getElem
  · simp [resize, shareAfter]
  · intro u h1 h2
    simp only [shareAfter, List.getElem_map, List.getElem_range, List.getElem_set]
    by_cases hu1 : 1 = u
    · subst hu1
      simp
    · by_cases hu0 : 0 = u
      · subst hu0
        simp
      · have hu : ¬ u ≤ 1 := by omega
        have hu0' : ¬ u = 0 := fun e => hu0 e.symm
        simp [hu1, hu0, hu, hu0', resize]

theorem shareAfter_next (rand : Nat → Nat) (secret : List Nat) (t L b k : Nat)
    (hb : 1 ≤ b) :
    (shareAfter rand secret t L b k).set (b + 1)
        (evaluatePolynomial (splitCoefficients rand secret t b) ((k + 1) % 256))
      = shareAfter rand secret t L (b + 1) k := by
  apply List.ext_getElem
  · simp [shareAfter]
  · intro u h1 h2
    simp only [shareAfter, List.getElem_map, List.getElem_range, List.getElem_set]
    by_cases hu1 : b + 1 = u
    · subst hu1
      simp
    · by_cases hu0 : u = 0
      · subst hu0
        simp
      · by_cases hub : u ≤ b
        · have : u ≤ b + 1 := by omega
          simp [hu1, hu0, hub, this]
        · have : ¬ u ≤ b + 1 := by omega
          simp [hu1, hu0, hub, this]

theorem shareAfter_last (rand : Nat → Nat) (secret : List Nat) (t L k : Nat) :
    shareAfter rand secret t L L k
      = ((k + 1) % 256) :: (List.range L).map (fun i =>
          evaluatePolynomial (splitCoefficients rand secret t i) ((k + 1) % 256)) := by
  rw [shareAfter, List.range_succ_eq_map, List.map_cons, List.map_map]
  simp only [if_true, List.cons.injEq, true_and]
  apply List.map_congr_left
  intro u hu
  have := List.mem_range.1 hu
  simp [Function.comp]
  omega

theorem byteLoop_spec (rand : Nat → Nat) (secret : List Nat) (totalShares threshold : Int)
    (ht : 1 ≤ threshold.toNat) (b : Nat) :
    List.foldl (byteStep rand secret totalShares threshold)
        (List.replicate totalShares.toNat [], 0) (List.range b)
      = (if b = 0 then List.replicate totalShares.toNat []
          else (List.range totalShares.toNat).map
            (shareAfter rand secret threshold.toNat secret.length b),
         b * (threshold.toNat - 1)) := by
  induction b with
  | zero => simp
  | succ b ih =>
    rw [foldl_range_succ, ih]
    unfold byteStep
    simp only [coeffLoop_split rand secret threshold.toNat b ht]
    rw [if_neg (Nat.succ_ne_zero b)]
    simp only [Prod.mk.injEq, and_true]
    by_cases hb : b = 0
    · subst hb
      rw [if_pos rfl]
      have h := shareLoop_spec secret.length 0
        (splitCoefficients rand secret threshold.toNat 0)
        (List.replicate totalShares.toNat [])
      simp only [List.length_replicate] at h
      rw [h]
      apply List.map_congr_left
      intro k hk
      have hk' := List.mem_range.1 hk
      have e : (List.replicate totalShares.toNat ([] : List Nat)).getD k [] = [] := by
        simp [List.getD_eq_getElem?_getD, List.getElem?_replicate, hk']
      rw [e]
      simp only [if_true]
      exact shareAfter_first rand secret threshold.toNat secret.length k
    · rw [if_neg hb]
      have h := shareLoop_spec secret.length b
        (splitCoefficients rand secret threshold.toNat b)
        ((List.range totalShares.toNat).map
          (shareAfter rand secret threshold.toNat secret.length b))
      simp only [List.length_map, List.length_range] at h
      rw [h]
      apply List.map_congr_left
      intro k hk
      have hk' := List.mem_range.1 hk
      rw [if_neg hb]
      have e : ((List.range totalShares.toNat).map
          (shareAfter rand secret threshold.toNat secret.length b)).getD k []
          = shareAfter rand secret threshold.toNat secret.length b k := by
        simp [List.getD_eq_getElem?_getD, List.getElem?_range, hk']
      rw [e]
      exact shareAfter_next rand secret threshold.toNat secret.length b k (by omega)

theorem splitSecretRun_ok (rand : Nat → Nat) (secret : List Nat) (totalShares threshold : Int)
    (h2 : 2 ≤ threshold) (hle : threshold ≤ totalShares) (h255 : totalShares ≤ 255) :
    splitSecretRun rand secret totalShares threshold
      = Except.ok (splitShares rand secret totalShares.toNat threshold.toNat,
          secret.length * (threshold.toNat - 1)) := by
  unfold splitSecretRun
  rw [if_neg (by omega), if_neg (by omega), if_neg (by omega)]
  rw [byteLoop_spec rand secret totalShares threshold (by omega) secret.length]
  unfold splitShares
  by_cases hL : secret.length = 0
  · simp only [hL, if_true]
    rfl
  · simp only [hL, if_false]
    have : (List.range totalShares.toNat).map
        (shareAfter rand secret threshold.toNat secret.length secret.length)
        = (List.range totalShares.toNat).map (fun k =>
          ((k + 1) % 256) :: (List.range secret.length).map (fun i =>
            evaluatePolynomial (splitCoefficients rand secret threshold.toNat i)
              ((k + 1) % 256))) := by
      apply List.map_congr_left
      intro k _
      exact shareAfter_last rand secret threshold.toNat secret.length k
    rw [this]
    rfl

theorem splitSecret_ok (rand : Nat → Nat) (secret : List Nat) (totalShares threshold : Int)
    (h2 : 2 ≤ threshold) (hle : threshold ≤ totalShares) (h255 : totalShares ≤ 255) :
    splitSecret rand secret totalShares threshold
      = Except.ok (splitShares rand secret totalShares.toNat threshold.toNat) := by
  unfold splitSecret
  rw [splitSecretRun_ok rand secret totalShares threshold h2 hle h255]
  rfl

/-! ## What `recoverSecret` computes -/

theorem foldlM_range_succ {σ : Type} (step : σ → Nat → Except Exn σ) (init : σ) (n : Nat) :
    List.foldlM step init (List.range (n + 1))
      = (List.foldlM step init (List.range n) >>= fun s => step s n) := by
  rw [List.range_succ, List.foldlM_append]
  congr 1
  funext s
  simp [List.foldlM_cons]

/-- A loop that has reached index `k` and throws there throws as a whole. -/
theorem foldlM_range_error {σ : Type} (step : σ → Nat → Except Exn σ) (init s : σ)
    (k : Nat) (e : Exn) (hpre : List.foldlM step init (List.range k) = Except.ok s)
    (hfail : step s k = Except.error e) (n : Nat) (hk : k < n) :
    List.foldlM step init (List.range n) = Except.error e := by
  induction n with
  | zero => omega
  | succ n ih =>
    rw [foldlM_range_succ]
    by_cases hkn : k = n
    · subst hkn
      rw [hpre]
      exact hfail
    · rw [ih (by omega)]
      rfl

theorem foldlM_congr {σ : Type} (f g : σ → Nat → Except Exn σ) (l : List Nat)
    (h : ∀ s, ∀ i ∈ l, f s i = g s i) :
    ∀ init, List.foldlM f init l = List.foldlM g init l := by
  induction l with
  | nil => intro init; rfl
  | cons a l ih =>
    intro init
    rw [List.foldlM_cons, List.foldlM_cons, h init a (List.mem_cons_self _ _)]
    congr 1
    funext s
    exact ih (fun s i hi => h s i (List.mem_cons_of_mem _ hi)) s

theorem map_range_set {α : Type} (f : Nat → α) (n k : Nat) (v : α) :
    ((List.range n).map f).set k v = (List.range n).map (fun i => if i = k then v else f i) := by
  apply List.ext_getElem
  · simp
  · intro i h1 h2
    simp only [List.getElem_set, List.getElem_map, List.getElem_range]
    by_cases hik : k = i
    · subst hik; simp
    · have : ¬ i = k := fun e => hik e.symm
      simp [hik, this]

theorem idByte_lt (shareIds : List Int) (i : Nat) : idByte shareIds i < 256 := by
  unfold idByte
  have h1 := Int.emod_nonneg (shareIds.getD i 0) (by norm_num : (256 : Int) ≠ 0)
  have h2 := Int.emod_lt_of_pos (shareIds.getD i 0) (by norm_num : (0 : Int) < 256)
  omega

theorem copyLoop_spec (share : List Nat) (k n M : Nat) (a : Nat → Nat → Nat) :
    List.foldl (copyStep share k)
        ((List.range M).map (fun b => (List.range n).map (fun i => if i < k then a b i else 0)))
        (List.range M)
      = (List.range M).map (fun b => (List.range n).map (fun i =>
          if i = k then share.getD (b + 1) 0 else if i < k then a b i else 0)) := by
  have h := foldl_set_range (fun b row => row.set k (share.getD (b + 1) 0)) []
    ((List.range M).map (fun b => (List.range n).map (fun i => if i < k then a b i else 0))) M
  have e : (fun acc b => acc.set b ((fun b row => row.set k (share.getD (b + 1) 0)) b
      (acc.getD b []))) = copyStep share k := by
    funext acc b
    rfl
  rw [e] at h
  rw [h]
  simp only [List.length_map, List.length_range]
  apply List.map_congr_left
  intro b hb
  have hb' := List.mem_range.1 hb
  rw [if_pos hb']
  have e2 : ((List.range M).map (fun b => (List.range n).map
      (fun i => if i < k then a b i else 0))).getD b []
      = (List.range n).map (fun i => if i < k then a b i else 0) := by
    simp [List.getD_eq_getElem?_getD, List.getElem?_range, hb']
  rw [e2, map_range_set]

theorem gatherLoop_spec (shareIds : List Int) (shares : List (List Nat)) (M : Nat)
    (hids : shares.length ≤ shareIds.length) (k : Nat)
    (hlen : ∀ i < k, (shares.getD i []).length = M + 1) (hk : k ≤ shares.length) :
    List.foldlM (gatherStep shareIds shares M)
        (List.replicate shares.length 0, List.replicate M (List.replicate shares.length 0))
        (List.range k)
      = Except.ok
        ((List.range shares.length).map (fun i => if i < k then idByte shareIds i else 0),
         (List.range M).map (fun b => (List.range shares.length).map (fun i =>
            if i < k then (shares.getD i []).getD (b + 1) 0 else 0))) := by
  induction k with
  | zero =>
    simp only [List.range_zero, List.foldlM_nil, Nat.not_lt_zero, if_false]
    congr 2
    · apply List.ext_getElem <;> simp
    · apply List.ext_getElem
      · simp
      · intro b h1 h2
        simp only [List.getElem_replicate, List.getElem_map]
        apply List.ext_getElem <;> simp
  | succ k ih =>
    rw [foldlM_range_succ, ih (fun i hi => hlen i (by omega)) (by omega)]
    simp only [Except.bind, bind]
    unfold gatherStep
    rw [if_neg (not_not.2 (hlen k (by omega)))]
    rw [readAt_getD shareIds k 0 (by omega)]
    simp only [Except.bind, bind, pure, Except.pure]
    congr 2
    · rw [map_range_set]
      apply List.map_congr_left
      intro i _
      by_cases h1 : i = k
      · subst h1; simp [idByte]
      · by_cases h2 : i < k
        · simp [h1, h2, Nat.lt_succ_of_lt h2]
        · have : ¬ i < k + 1 := by omega
          simp [h1, h2, this]
    · rw [copyLoop_spec]
      apply List.map_congr_left
      intro b _
      apply List.map_congr_left
      intro i _
      by_cases h1 : i = k
      · subst h1; simp
      · by_cases h2 : i < k
        · simp [h1, h2, Nat.lt_succ_of_lt h2]
        · have : ¬ i < k + 1 := by omega
          simp [h1, h2, this]

theorem gather_ok (shareIds : List Int) (shares : List (List Nat)) (M : Nat)
    (hlen : ∀ i < shares.length, (shares.getD i []).length = M + 1)
    (hids : shares.length ≤ shareIds.length) :
    List.foldlM (gatherStep shareIds shares M)
        (List.replicate shares.length 0, List.replicate M (List.replicate shares.length 0))
        (List.range shares.length)
      = Except.ok (gatheredX shareIds shares.length, (List.range M).map (gatheredY shares)) := by
  rw [gatherLoop_spec shareIds shares M hids shares.length hlen (le_refl _)]
  unfold gatheredX gatheredY
  congr 2
  · apply List.map_congr_left
    intro i hi
    rw [if_pos (List.mem_range.1 hi)]
  · apply List.map_congr_left
    intro b _
    apply List.map_congr_left
    intro i hi
    rw [if_pos (List.mem_range.1 hi)]

theorem recoverLoop_spec (xs : List Nat) (ys : List (List Nat)) (M : Nat) (v : Nat → Nat)
    (k : Nat) (hk : k ≤ M)
    (hv : ∀ b < k, interpolate xs (ys.getD b []) 0 = Except.ok (v b)) :
    List.foldlM (recoverStep xs ys) (List.replicate M 0) (List.range k)
      = Except.ok ((List.range M).map (fun b => if b < k then v b else 0)) := by
  induction k with
  | zero =>
    simp only [List.range_zero, List.foldlM_nil, Nat.not_lt_zero, if_false]
    congr 1
    apply List.ext_getElem <;> simp
  | succ k ih =>
    rw [foldlM_range_succ, ih (by omega) (fun b hb => hv b (by omega))]
    simp only [Except.bind, bind]
    unfold recoverStep
    rw [hv k (by omega)]
    simp only [Except.bind, bind, pure, Except.pure]
    congr 1
    rw [map_range_set]
    apply List.map_congr_left
    intro i _
    by_cases h1 : i = k
    · subst h1; simp
    · by_cases h2 : i < k
      · simp [h1, h2, Nat.lt_succ_of_lt h2]
      · have : ¬ i < k + 1 := by omega
        simp [h1, h2, this]

theorem recoverLoop_ok (xs : List Nat) (ys : List (List Nat)) (M : Nat) (v : Nat → Nat)
    (hv : ∀ b < M, interpolate xs (ys.getD b []) 0 = Except.ok (v b)) :
    List.foldlM (recoverStep xs ys) (List.replicate M 0) (List.range M)
      = Except.ok ((List.range M).map v) := by
  rw [recoverLoop_spec xs ys M v M (le_refl _) hv]
  congr 1
  apply List.map_congr_left
  intro b hb
  rw [if_pos (List.mem_range.1 hb)]

theorem recoverLoop_error (xs : List Nat) (ys : List (List Nat)) (M : Nat) (v : Nat → Nat)
    (b0 : Nat) (hb0 : b0 < M) (e : Exn)
    (hv : ∀ b < b0, interpolate xs (ys.getD b []) 0 = Except.ok (v b))
    (he : interpolate xs (ys.getD b0 []) 0 = Except.error e) :
    List.foldlM (recoverStep xs ys) (List.replicate M 0) (List.range M)
      = Except.error e := by
  refine foldlM_range_error _ _ _ b0 e
    (recoverLoop_spec xs ys M v b0 (by omega) hv) ?_ M hb0
  unfold recoverStep
  rw [he]
  rfl

theorem gatheredY_getD (shares : List (List Nat)) (M b : Nat) (hb : b < M) :
    ((List.range M).map (gatheredY shares)).getD b [] = gatheredY shares b := by
  simp [List.getD_eq_getElem?_getD, List.getElem?_range, hb]

/-- With at least two shares of one length `M + 1` and an id for every share,
`recoverSecret` runs `interpolate` at 0 for each of the `M` byte positions. -/
theorem recoverSecret_eq (shareIds : List Int) (shares : List (List Nat)) (M : Nat)
    (hn : 2 ≤ shares.length)
    (hlen : ∀ i < shares.length, (shares.getD i []).length = M + 1)
    (hids : shares.length ≤ shareIds.length) :
    recoverSecret shareIds shares
      = List.foldlM (recoverStep (gatheredX shareIds shares.length)
          ((List.range M).map (gatheredY shares))) (List.replicate M 0) (List.range M) := by
  unfold recoverSecret
  rw [if_neg (by omega)]
  have h0 := hlen 0 (by omega)
  split
  · rename_i h
    omega
  · rename_i secretSize h
    have : secretSize = M := by omega
    subst this
    dsimp only
    rw [gather_ok shareIds shares secretSize hlen hids]
    rfl

theorem recoverSecret_ok (shareIds : List Int) (shares : List (List Nat)) (M : Nat)
    (hn : 2 ≤ shares.length)
    (hlen : ∀ i < shares.length, (shares.getD i []).length = M + 1)
    (hids : shares.length ≤ shareIds.length) (v : Nat → Nat)
    (hv : ∀ b < M, interpolate (gatheredX shareIds shares.length) (gatheredY shares b) 0
      = Except.ok (v b)) :
    recoverSecret shareIds shares = Except.ok ((List.range M).map v) := by
  rw [recoverSecret_eq shareIds shares M hn hlen hids]
  apply recoverLoop_ok
  intro b hb
  rw [gatheredY_getD shares M b hb]
  exact hv b hb

theorem recoverSecret_error (shareIds : List Int) (shares : List (List Nat)) (M : Nat)
    (hn : 2 ≤ shares.length)
    (hlen : ∀ i < shares.length, (shares.getD i []).length = M + 1)
    (hids : shares.length ≤ shareIds.length) (hM : 1 ≤ M) (e : Exn)
    (he : interpolate (gatheredX shareIds shares.length) (gatheredY shares 0) 0
      = Except.error e) :
    recoverSecret shareIds shares = Except.error e := by
  rw [recoverSecret_eq shareIds shares M hn hlen hids]
  refine recoverLoop_error _ _ M (fun _ => 0) 0 (by omega) e (fun b hb => by omega) ?_
  rw [gatheredY_getD shares M 0 (by omega)]
  exact he

/-! ## Failure of `interpolate` on equal x-coordinates -/

theorem interpolateStep_error (xs : List Nat) (x i term j : Nat) (hij : i ≠ j)
    (h : GF256.ofNat (xs.getD i 0) = GF256.ofNat (xs.getD j 0)) :
    interpolateStep xs x i term j
      = Except.error (Exn.invalid_argument "Division by zero") := by
  unfold interpolateStep
  rw [if_pos hij]
  dsimp only
  rw [div_error _ _ (by rw [ofNat_xor, h, gf_add_self])]
  rfl

theorem interpolateTerm_error (xs ys : List Nat) (x result i : Nat) (hi : i < ys.length)
    (h : ∃ j < xs.length, j ≠ i ∧ GF256.ofNat (xs.getD i 0) = GF256.ofNat (xs.getD j 0)) :
    interpolateTerm xs ys x result i
      = Except.error (Exn.invalid_argument "Division by zero") := by
  classical
  have hex : ∃ j, j < xs.length ∧ j ≠ i
      ∧ GF256.ofNat (xs.getD i 0) = GF256.ofNat (xs.getD j 0) := by
    obtain ⟨j, h1, h2, h3⟩ := h
    exact ⟨j, h1, h2, h3⟩
  obtain ⟨hj0, hne0, heq0⟩ := Nat.find_spec hex
  have hmin : ∀ j < Nat.find hex, j ≠ i →
      GF256.ofNat (xs.getD i 0) ≠ GF256.ofNat (xs.getD j 0) := by
    intro j hj hji e
    exact Nat.find_min hex hj ⟨by omega, hji, e⟩
  obtain ⟨t, ht, _, _⟩ := interpolate_inner xs x i (List.range (Nat.find hex))
    (fun j hj => hmin j (List.mem_range.1 hj)) (ys.getD i 0)
  have hinner := foldlM_range_error (interpolateStep xs x i) (ys.getD i 0) t (Nat.find hex)
    _ ht (interpolateStep_error xs x i t _ (fun e => hne0 e.symm) heq0) xs.length hj0
  unfold interpolateTerm
  rw [readAt_getD ys i 0 hi]
  simp only [Except.bind, bind, hinner]

/-- The call `interpolate` throws the division error of `field::div` as soon as two
x-coordinates are the same byte. -/
theorem interpolate_error (xs ys : List Nat) (x : Nat) (hlen : xs.length ≤ ys.length)
    (h : ∃ i < xs.length, ∃ j < xs.length, i ≠ j ∧ xs.getD i 0 % 256 = xs.getD j 0 % 256) :
    interpolate xs ys x = Except.error (Exn.invalid_argument "Division by zero") := by
  classical
  have hex : ∃ i, i < xs.length ∧ ∃ j < xs.length, j ≠ i
      ∧ GF256.ofNat (xs.getD i 0) = GF256.ofNat (xs.getD j 0) := by
    obtain ⟨i, hi, j, hj, hij, e⟩ := h
    exact ⟨i, hi, j, hj, fun e' => hij e'.symm, (ofNat_eq_iff _ _).2 e⟩
  obtain ⟨hi0, hdup⟩ := Nat.find_spec hex
  have hmin : ∀ i < Nat.find hex, ∀ j < xs.length, j ≠ i →
      GF256.ofNat (xs.getD i 0) ≠ GF256.ofNat (xs.getD j 0) := by
    intro i hi j hj hji e
    exact Nat.find_min hex hi ⟨by omega, j, hj, hji, e⟩
  obtain ⟨r, hr, _, _⟩ := interpolate_outer xs ys x (List.range (Nat.find hex))
    (fun i hi => ⟨by have := List.mem_range.1 hi; omega, hmin i (List.mem_range.1 hi)⟩) 0
  exact foldlM_range_error (interpolateTerm xs ys x) 0 r (Nat.find hex) _ hr
    (interpolateTerm_error xs ys x r _ (by omega) hdup) xs.length hi0

theorem splitShares_length (rand : Nat → Nat) (secret : List Nat) (N t : Nat) :
    (splitShares rand secret N t).length = N := by
  unfold splitShares
  split <;> simp

theorem splitShares_getD (rand : Nat → Nat) (secret : List Nat) (N t k : Nat)
    (hL : 1 ≤ secret.length) (hk : k < N) :
    (splitShares rand secret N t).getD k []
      = ((k + 1) % 256) :: (List.range secret.length).map (fun i =>
          evaluatePolynomial (splitCoefficients rand secret t i) ((k + 1) % 256)) := by
  unfold splitShares
  rw [if_neg (by omega)]
  simp [List.getD_eq_getElem?_getD, List.getElem?_range, hk]

theorem mem_splitShares (rand : Nat → Nat) (secret : List Nat) (N t : Nat)
    (hL : 1 ≤ secret.length) (s : List Nat) (hs : s ∈ splitShares rand secret N t) :
    ∃ k < N, s = ((k + 1) % 256) :: (List.range secret.length).map (fun i =>
      evaluatePolynomial (splitCoefficients rand secret t i) ((k + 1) % 256)) := by
  unfold splitShares at hs
  rw [if_neg (by omega)] at hs
  obtain ⟨k, hk, e⟩ := List.mem_map.1 hs
  exact ⟨k, List.mem_range.1 hk, e.symm⟩

theorem cast_byte (x : Nat) : (((x : Nat) : Int) % 256).toNat = x % 256 := by
  omega

theorem range_map_getD (l : List Nat) : (List.range l.length).map (fun b => l.getD b 0) = l := by
  apply List.ext_getElem
  · simp
  · intro i h1 h2
    simp [List.getElem?_eq_getElem h2]

/-! ## Outcomes of `recoverSecret` -/

theorem gatheredX_length (shareIds : List Int) (n : Nat) :
    (gatheredX shareIds n).length = n := by
  simp [gatheredX]

theorem gatheredX_getD (shareIds : List Int) (n i : Nat) (hi : i < n) :
    (gatheredX shareIds n).getD i 0 = idByte shareIds i := by
  simp [gatheredX, List.getD_eq_getElem?_getD, List.getElem?_range, hi]

theorem gatheredY_length (shares : List (List Nat)) (b : Nat) :
    (gatheredY shares b).length = shares.length := by
  simp [gatheredY]

theorem gatheredY_getD' (shares : List (List Nat)) (b i : Nat) (hi : i < shares.length) :
    (gatheredY shares b).getD i 0 = (shares.getD i []).getD (b + 1) 0 := by
  simp [gatheredY, List.getElem?_range, hi]

theorem getD_mem {α : Type} (l : List α) (i : Nat) (d : α) (hi : i < l.length) :
    l.getD i d ∈ l := by
  rw [List.getD_eq_getElem _ _ hi]
  exact List.getElem_mem _

theorem recoverSecret_dup_error (shareIds : List Int) (shares : List (List Nat)) (M : Nat)
    (hn : 2 ≤ shares.length) (hM : 1 ≤ M)
    (hlen : ∀ i < shares.length, (shares.getD i []).length = M + 1)
    (hids : shares.length ≤ shareIds.length)
    (hdup : ∃ i < shares.length, ∃ j < shares.length, i ≠ j ∧
      idByte shareIds i = idByte shareIds j) :
    recoverSecret shareIds shares
      = Except.error (Exn.invalid_argument "Division by zero") := by
  apply recoverSecret_error shareIds shares M hn hlen hids hM
  apply interpolate_error
  · rw [gatheredX_length, gatheredY_length]
  · obtain ⟨i, hi, j, hj, hij, e⟩ := hdup
    rw [gatheredX_length]
    refine ⟨i, hi, j, hj, hij, ?_⟩
    rw [gatheredX_getD _ _ _ hi, gatheredX_getD _ _ _ hj, e]

/-- With a non-empty first share, a share of another length makes `recoverSecret` throw
`"Shares have inconsistent sizes"` (when every share has an id). -/
theorem recoverSecret_inconsistent (shareIds : List Int) (shares : List (List Nat))
    (hn : 2 ≤ shares.length) (h0 : (shares.getD 0 []).length ≠ 0)
    (hids : shares.length ≤ shareIds.length)
    (hne : ∃ i < shares.length, (shares.getD i []).length ≠ (shares.getD 0 []).length) :
    recoverSecret shareIds shares
      = Except.error (Exn.invalid_argument "Shares have inconsistent sizes") := by
  classical
  unfold recoverSecret
  rw [if_neg (by omega)]
  split
  · rename_i h
    exact absurd h h0
  · rename_i secretSize h
    have hex : ∃ i, i < shares.length ∧ (shares.getD i []).length ≠ secretSize + 1 := by
      obtain ⟨i, hi, hl⟩ := hne
      exact ⟨i, hi, by omega⟩
    obtain ⟨hi0, hbad⟩ := Nat.find_spec hex
    have hmin : ∀ i < Nat.find hex, (shares.getD i []).length = secretSize + 1 := by
      intro i hi
      by_contra hc
      exact Nat.find_min hex hi ⟨by omega, hc⟩
    have hpre := gatherLoop_spec shareIds shares secretSize hids (Nat.find hex) hmin
      (by omega)
    have hloop := foldlM_range_error (gatherStep shareIds shares secretSize) _ _
      (Nat.find hex) (Exn.invalid_argument "Shares have inconsistent sizes") hpre
      (by unfold gatherStep; rw [if_pos hbad]; rfl) shares.length hi0
    dsimp only
    rw [hloop]
    rfl

/-- The outcome of `recoverSecret` on at least two shares of one length `M + 1`, each with
an id: a secret, or the division error. -/
theorem recoverSecret_outcome (shareIds : List Int) (shares : List (List Nat)) (M : Nat)
    (hn : 2 ≤ shares.length)
    (hlen : ∀ i < shares.length, (shares.getD i []).length = M + 1)
    (hids : shares.length ≤ shareIds.length) :
    (∃ secret, recoverSecret shareIds shares = Except.ok secret) ∨
      recoverSecret shareIds shares
        = Except.error (Exn.invalid_argument "Division by zero") := by
  classical
  by_cases hd : DistinctBytes (gatheredX shareIds shares.length)
  · left
    have h : ∀ b, ∃ r, interpolate (gatheredX shareIds shares.length) (gatheredY shares b) 0
        = Except.ok r := by
      intro b
      obtain ⟨r, hr, _⟩ := interpolate_ok (gatheredX shareIds shares.length)
        (gatheredY shares b) 0 (by rw [gatheredX_length, gatheredY_length]) hd
      exact ⟨r, hr⟩
    choose v hv using h
    exact ⟨_, recoverSecret_ok shareIds shares M hn hlen hids v (fun b _ => hv b)⟩
  · by_cases hM : M = 0
    · left
      subst hM
      exact ⟨_, recoverSecret_ok shareIds shares 0 hn hlen hids (fun _ => 0)
        (fun b hb => by omega)⟩
    · right
      apply recoverSecret_error shareIds shares M hn hlen hids (by omega)
      apply interpolate_error
      · rw [gatheredX_length, gatheredY_length]
      · unfold DistinctBytes at hd
        push_neg at hd
        obtain ⟨i, hi, j, hj, hij, e⟩ := hd
        exact ⟨i, hi, j, hj, hij, e⟩

theorem readAt_take {α : Type} (v : List α) (n i : Nat) (hi : i < n) :
    readAt (v.take n) i = readAt v i := by
  unfold readAt
  rw [List.getElem?_take_of_lt hi]

/-- The function `recoverSecret` reads the ids at the positions of the shares only. -/
theorem recoverSecret_take (shareIds : List Int) (shares : List (List Nat)) :
    recoverSecret (shareIds.take shares.length) shares = recoverSecret shareIds shares := by
  unfold recoverSecret
  split
  · rfl
  · split
    · rfl
    · rename_i secretSize h
      dsimp only
      rw [foldlM_congr (gatherStep (shareIds.take shares.length) shares secretSize)
        (gatherStep shareIds shares secretSize) (List.range shares.length)]
      intro s i hi
      unfold gatherStep
      rw [readAt_take shareIds shares.length i (List.mem_range.1 hi)]

/-! ## The interpolation formula of the specification -/

theorem specQuotient_ofNat (a b : Nat) (hb : GF256.ofNat b ≠ 0) :
    GF256.ofNat (specQuotient a b) = GF256.ofNat a / GF256.ofNat b := by
  unfold specQuotient
  rw [div_ok a b hb]
  exact ofNat_div_value a b

theorem specWeight_ofNat (xs : List Nat) (j : Nat) (l : List Nat)
    (h : ∀ m ∈ l, m ≠ j → GF256.ofNat (xs.getD j 0) ≠ GF256.ofNat (xs.getD m 0)) :
    GF256.ofNat ((l.filter (fun m => m ≠ j)).foldr
      (fun m acc => field.mul (specQuotient (xs.getD m 0) (xs.getD j 0 ^^^ xs.getD m 0)) acc) 1)
      = (l.map (lagrangeFactor xs 0 j)).prod := by
  induction l with
  | nil => simp [ofNat_one]
  | cons m l ih =>
    have ih' := ih (fun m' hm' => h m' (List.mem_cons_of_mem _ hm'))
    by_cases hmj : m = j
    · subst hmj
      simp only [List.filter_cons, ne_eq, not_true_eq_false, decide_False, List.map_cons,
        List.prod_cons]
      rw [if_neg (by simp)]
      simp only [ne_eq] at ih'
      rw [ih']
      simp [lagrangeFactor]
    · have hne : GF256.ofNat (xs.getD j 0 ^^^ xs.getD m 0) ≠ 0 := by
        rw [ofNat_xor, ← gf_sub_eq_add]
        exact sub_ne_zero.2 (h m (List.mem_cons_self _ _) hmj)
      simp only [List.filter_cons, ne_eq, hmj, not_false_eq_true, decide_True, if_true,
        List.foldr_cons, List.map_cons, List.prod_cons]
      simp only [ne_eq] at ih'
      rw [ofNat_mul, ih', specQuotient_ofNat _ _ hne]
      congr 1
      have hjm : ¬ j = m := fun e => hmj e.symm
      simp only [lagrangeFactor, if_neg hjm, ofNat_xor, ofNat_zero, gf_sub_eq_add, zero_add]

theorem specLagrange_ofNat (xs ys : List Nat) (l : List Nat)
    (h : ∀ j ∈ l, ∀ m < xs.length, m ≠ j →
      GF256.ofNat (xs.getD j 0) ≠ GF256.ofNat (xs.getD m 0)) :
    GF256.ofNat (l.foldr
      (fun j acc => field.mul (ys.getD j 0) (specLagrangeWeight xs j) ^^^ acc) 0)
      = (l.map (fun j => GF256.ofNat (ys.getD j 0)
          * ((List.range xs.length).map (lagrangeFactor xs 0 j)).prod)).sum := by
  induction l with
  | nil => simp [ofNat_zero]
  | cons j l ih =>
    simp only [List.foldr_cons, List.map_cons, List.sum_cons]
    rw [ofNat_xor, ofNat_mul, ih (fun j' hj' => h j' (List.mem_cons_of_mem _ hj'))]
    congr 2
    exact specWeight_ofNat xs j (List.range xs.length)
      (fun m hm => h j (List.mem_cons_self _ _) m (List.mem_range.1 hm))

theorem specLagrange_lt (xs ys : List Nat) (l : List Nat) :
    l.foldr (fun j acc => field.mul (ys.getD j 0) (specLagrangeWeight xs j) ^^^ acc) 0
      < 256 := by
  induction l with
  | nil => simp
  | cons j l ih =>
    simp only [List.foldr_cons]
    exact xor_lt_256 (gf_mul_lt _ _) ih

/-- On at least two pairwise different x-coordinates `interpolate` at 0 returns the value
of the specification's formula. -/
theorem interpolate_eq_spec (xs ys : List Nat) (hlen : xs.length ≤ ys.length)
    (hd : DistinctBytes xs) (h2 : 2 ≤ xs.length) :
    interpolate xs ys 0 = Except.ok (specLagrangeAtZero xs ys) := by
  have hne : ∀ i ∈ List.range xs.length, i < ys.length ∧ ∀ j < xs.length, j ≠ i →
      GF256.ofNat (xs.getD i 0) ≠ GF256.ofNat (xs.getD j 0) := by
    intro i hi
    have hi' := List.mem_range.1 hi
    refine ⟨by omega, fun j hj hji e => ?_⟩
    exact hd i hi' j hj (fun e' => hji e'.symm) ((ofNat_eq_iff _ _).1 e)
  obtain ⟨r, hr, er, br⟩ := interpolate_outer xs ys 0 (List.range xs.length) hne 0
  have hr' : interpolate xs ys 0 = Except.ok r := hr
  rw [hr']
  congr 1
  apply ofNat_injOn (br (by norm_num) (Or.inl h2)) (specLagrange_lt xs ys _)
  rw [er, ofNat_zero, zero_add]
  rw [specLagrange_ofNat xs ys (List.range xs.length) (fun j hj m hm hmj => (hne j hj).2 m hm hmj)]

theorem gatheredX_eq_map (shareIds : List Int) :
    gatheredX shareIds shareIds.length = shareIds.map (fun id => (id % 256).toNat) := by
  apply List.ext_getElem
  · simp [gatheredX]
  · intro i h1 h2
    have hi : i < shareIds.length := by simpa using h2
    simp [gatheredX, idByte, List.getElem?_eq_getElem hi]

theorem gatheredY_eq_map (shares : List (List Nat)) (b : Nat) :
    gatheredY shares b = shares.map (fun s => s.getD (b + 1) 0) := by
  apply List.ext_getElem
  · simp [gatheredY]
  · intro i h1 h2
    have hi : i < shares.length := by simpa using h2
    simp [gatheredY, List.getElem?_eq_getElem hi]

theorem idByte_ne (shareIds : List Int) (i j : Nat)
    (h : shareIds.getD i 0 % 256 ≠ shareIds.getD j 0 % 256) :
    idByte shareIds i ≠ idByte shareIds j := by
  unfold idByte
  have h1 := Int.emod_nonneg (shareIds.getD i 0) (by norm_num : (256 : Int) ≠ 0)
  have h2 := Int.emod_nonneg (shareIds.getD j 0) (by norm_num : (256 : Int) ≠ 0)
  omega

theorem distinct_gatheredX (shareIds : List Int) (n : Nat)
    (hd : ∀ i < n, ∀ j < n, i ≠ j → shareIds.getD i 0 % 256 ≠ shareIds.getD j 0 % 256) :
    DistinctBytes (gatheredX shareIds n) := by
  intro i hi j hj hij
  rw [gatheredX_length] at hi hj
  rw [gatheredX_getD _ _ _ hi, gatheredX_getD _ _ _ hj,
    Nat.mod_eq_of_lt (idByte_lt _ _), Nat.mod_eq_of_lt (idByte_lt _ _)]
  exact idByte_ne shareIds i j (hd i hi j hj hij)

/-! ## Coefficient lists and polynomials of bounded degree -/

theorem ofNat_val_self (a : GF256) : GF256.ofNat a.val = a :=
  GF256.eq_of_val (by rw [ofNat_val, Nat.mod_eq_of_lt a.isLt])

theorem ofNat_ne_zero {x : Nat} (h1 : 1 ≤ x) (h2 : x < 256) : GF256.ofNat x ≠ 0 := by
  intro h
  have := (ofNat_eq_zero_iff x).1 h
  rw [Nat.mod_eq_of_lt h2] at this
  omega

/-- The polynomial over GF(256) whose coefficients are the bytes of a coefficient list, and
the values of the loop of `evaluatePolynomial` in terms of it. -/
theorem evalLoop_poly_coeff (c : List Nat) :
    ∃ p : Polynomial GF256, (∀ i, p.coeff i = GF256.ofNat (c.getD i 0)) ∧
      ∀ x result x_pow, GF256.ofNat (evalLoop x c result x_pow)
        = GF256.ofNat result + GF256.ofNat x_pow * p.eval (GF256.ofNat x) := by
  induction c with
  | nil =>
    refine ⟨0, ?_, ?_⟩
    · intro i
      simp [ofNat_zero]
    · intro x r xp
      simp [evalLoop]
  | cons a rest ih =>
    obtain ⟨q, hq, hev⟩ := ih
    refine ⟨Polynomial.C (GF256.ofNat a) + Polynomial.X * q, ?_, ?_⟩
    · intro i
      cases i with
      | zero => simp
      | succ k =>
        rw [Polynomial.coeff_add, Polynomial.coeff_C_succ, Polynomial.coeff_X_mul, zero_add,
          hq k, List.getD_cons_succ]
    · intro x r xp
      simp only [evalLoop]
      rw [hev, ofNat_xor, ofNat_mul, ofNat_mul]
      simp only [Polynomial.eval_add, Polynomial.eval_C, Polynomial.eval_mul,
        Polynomial.eval_X]
      ring

theorem degree_lt_of_coeff (c : List Nat) (p : Polynomial GF256)
    (hp : ∀ i, p.coeff i = GF256.ofNat (c.getD i 0)) : p.degree < c.length := by
  rw [Polynomial.degree_lt_iff_coeff_zero]
  intro m hm
  rw [hp m, List.getD_eq_default _ _ hm, ofNat_zero]

/-- The value of `evaluatePolynomial` on `s :: r` is `s + x * q(x)` for the polynomial `q`
of the tail `r`. -/
theorem evaluatePolynomial_cons_poly (r : List Nat) :
    ∃ q : Polynomial GF256, (∀ i, q.coeff i = GF256.ofNat (r.getD i 0)) ∧
      ∀ s x, GF256.ofNat (evaluatePolynomial (s :: r) x)
        = GF256.ofNat s + GF256.ofNat x * q.eval (GF256.ofNat x) := by
  obtain ⟨q, hq, hev⟩ := evalLoop_poly_coeff r
  refine ⟨q, hq, fun s x => ?_⟩
  simp only [evaluatePolynomial, evalLoop]
  rw [hev, ofNat_xor, ofNat_mul, ofNat_mul, ofNat_zero, ofNat_one, zero_add, mul_one, one_mul]

/-- The recovery from two one-byte shares with the ids 1 and 3. -/
theorem recoverSecret_ids_1_3 (e1 e3 : Nat) :
    recoverSecret [1, 3] [[1, e1], [3, e3]]
      = Except.ok [specLagrangeAtZero [1, 3] [e1, e3]] := by
  have hx : gatheredX [1, 3] 2 = [1, 3] := by decide
  have hd : DistinctBytes [1, 3] := by
    intro i hi j hj hij
    simp only [List.length_cons, List.length_nil] at hi hj
    have hi' : i = 0 ∨ i = 1 := by omega
    have hj' : j = 0 ∨ j = 1 := by omega
    rcases hi' with rfl | rfl <;> rcases hj' with rfl | rfl <;> simp at hij ⊢
  have hlen : ∀ i < ([[1, e1], [3, e3]] : List (List Nat)).length,
      (([[1, e1], [3, e3]] : List (List Nat)).getD i []).length = 1 + 1 := by
    intro i hi
    simp only [List.length_cons, List.length_nil] at hi
    have hi' : i = 0 ∨ i = 1 := by omega
    rcases hi' with rfl | rfl <;> rfl
  have h := recoverSecret_ok [1, 3] [[1, e1], [3, e3]] 1 (Nat.le_refl 2) hlen (Nat.le_refl 2)
    (fun _ => specLagrangeAtZero [1, 3] [e1, e3]) (by
      intro b hb
      have hb0 : b = 0 := by omega
      subst hb0
      have hl : ([[1, e1], [3, e3]] : List (List Nat)).length = 2 := rfl
      have hy : gatheredY [[1, e1], [3, e3]] 0 = [e1, e3] := rfl
      rw [hl, hx, hy]
      exact interpolate_eq_spec [1, 3] [e1, e3] (Nat.le_refl 2) hd (Nat.le_refl 2))
  exact h

/-! ## The polynomial value of the specification -/

theorem evalLoop_eq_spec (x : Nat) (c : List Nat) : ∀ (k result : Nat),
    evalLoop x c result (specPow x k)
      = ((List.range c.length).map
          (fun i => field.mul (c.getD i 0) (specPow x (k + i)))).foldl
          (fun acc term => acc ^^^ term) result := by
  induction c with
  | nil => intro k result; rfl
  | cons a rest ih =>
    intro k result
    have hp : field.mul (specPow x k) x = specPow x (k + 1) := rfl
    simp only [evalLoop, hp, ih, List.length_cons, List.range_succ_eq_map, List.map_cons,
      List.map_map, List.foldl_cons, List.getD_cons_zero, Nat.add_zero]
    congr 2
    funext i
    simp only [Function.comp, Nat.succ_eq_add_one, List.getD_cons_succ]
    congr 2
    omega

/-! ## The reference product in GF(256) -/

theorem shl_xor (a b i : Nat) : (a ^^^ b) <<< i = (a <<< i) ^^^ (b <<< i) := by
  apply Nat.eq_of_testBit_eq
  intro k
  simp only [Nat.testBit_shiftLeft, Nat.testBit_xor]
  by_cases hi : i ≤ k <;> simp [hi]

theorem clmulLoop_xor_left (a c b : Nat) (l : List Nat) : ∀ acc acc',
    l.foldl (fun acc i => if b.testBit i then acc ^^^ ((a ^^^ c) <<< i) else acc)
        (acc ^^^ acc')
      = l.foldl (fun acc i => if b.testBit i then acc ^^^ (a <<< i) else acc) acc
        ^^^ l.foldl (fun acc i => if b.testBit i then acc ^^^ (c <<< i) else acc) acc' := by
  induction l with
  | nil => intro acc acc'; rfl
  | cons i l ih =>
    intro acc acc'
    simp only [List.foldl_cons]
    by_cases hb : b.testBit i
    · simp only [hb, if_true]
      rw [← ih, shl_xor]
      congr 1
      simp [Nat.xor_assoc, Nat.xor_comm, nat_xor_left_comm]
    · simp only [hb]
      exact ih acc acc'

theorem clmulLoop_xor_right (a b c : Nat) (l : List Nat) : ∀ acc acc',
    l.foldl (fun acc i => if (b ^^^ c).testBit i then acc ^^^ (a <<< i) else acc)
        (acc ^^^ acc')
      = l.foldl (fun acc i => if b.testBit i then acc ^^^ (a <<< i) else acc) acc
        ^^^ l.foldl (fun acc i => if c.testBit i then acc ^^^ (a <<< i) else acc) acc' := by
  induction l with
  | nil => intro acc acc'; rfl
  | cons i l ih =>
    intro acc acc'
    simp only [List.foldl_cons, Nat.testBit_xor]
    by_cases hb : b.testBit i <;> by_cases hc : c.testBit i <;>
      simp only [hb, hc, Bool.xor_self, Bool.true_xor, Bool.xor_true, Bool.xor_false,
        Bool.false_xor, Bool.not_true, Bool.not_false, if_true, if_false] <;>
      rw [← ih] <;> congr 1 <;>
      simp [Nat.xor_assoc, Nat.xor_comm, nat_xor_left_comm, nat_xor_self_left]

theorem clmul_xor_left (a c b : Nat) : clmul (a ^^^ c) b = clmul a b ^^^ clmul c b := by
  have h := clmulLoop_xor_left a c b (List.range 8) 0 0
  simpa [clmul] using h

theorem clmul_xor_right (a b c : Nat) : clmul a (b ^^^ c) = clmul a b ^^^ clmul a c := by
  have h := clmulLoop_xor_right a b c (List.range 8) 0 0
  simpa [clmul] using h

theorem divLoop_xor (l : List Nat) : ∀ q q' r r',
    divLoop l (q ^^^ q') (r ^^^ r')
      = ((divLoop l q r).1 ^^^ (divLoop l q' r').1,
         (divLoop l q r).2 ^^^ (divLoop l q' r').2) := by
  induction l with
  | nil => intro q q' r r'; rfl
  | cons i l ih =>
    intro q q' r r'
    have e1 : ∀ u v w : Nat, u ^^^ v ^^^ w = (u ^^^ w) ^^^ v := by
      intro u v w
      rw [Nat.xor_assoc, Nat.xor_comm v w, ← Nat.xor_assoc]
    have e2 : ∀ u v w : Nat, (u ^^^ w) ^^^ (v ^^^ w) = u ^^^ v := by
      intro u v w
      simp [Nat.xor_assoc, Nat.xor_comm, nat_xor_left_comm, nat_xor_self_left]
    simp only [divLoop, Nat.testBit_xor]
    cases hb : r.testBit i <;> cases hc : r'.testBit i
    · simp only [Bool.xor_self, Bool.false_eq_true, if_false]
      exact ih q q' r r'
    · simp only [Bool.false_xor, Bool.false_eq_true, if_true, if_false]
      rw [Nat.xor_assoc q, Nat.xor_assoc r]
      exact ih q _ r _
    · simp only [Bool.true_xor, Bool.not_false, Bool.false_eq_true, if_true, if_false]
      rw [e1 q, e1 r]
      exact ih _ q' _ r'
    · simp only [Bool.xor_self, Bool.false_eq_true, if_true, if_false]
      rw [← ih, e2, e2]

theorem polyRem_xor (p p' : Nat) : polyRem (p ^^^ p') = polyRem p ^^^ polyRem p' := by
  have h := divLoop_xor [14, 13, 12, 11, 10, 9, 8] 0 0 p p'
  rw [Nat.xor_self] at h
  simp only [polyRem, h]

theorem polyQuot_xor (p p' : Nat) : polyQuot (p ^^^ p') = polyQuot p ^^^ polyQuot p' := by
  have h := divLoop_xor [14, 13, 12, 11, 10, 9, 8] 0 0 p p'
  rw [Nat.xor_self] at h
  simp only [polyQuot, h]

theorem reference_basis : ∀ i < 8, ∀ j < 8,
    field.mul (2 ^ i) (2 ^ j) = polyRem (clmul (2 ^ i) (2 ^ j)) ∧
    clmul (2 ^ i) (2 ^ j)
      = clmul 0x11B (polyQuot (clmul (2 ^ i) (2 ^ j))) ^^^ field.mul (2 ^ i) (2 ^ j) := by
  decide!

theorem mul_eq_polyRem (a b : Nat) (ha : a < 256) (hb : b < 256) :
    field.mul a b = polyRem (clmul a b) := by
  refine additive_ext (fun x => field.mul x b) (fun x => polyRem (clmul x b))
    (fun x y => gf_mul_xor_left x y b)
    (fun x y => by simp only [clmul_xor_left, polyRem_xor]) ?_ a ha
  intro i hi
  exact additive_ext (fun y => field.mul (2 ^ i) y) (fun y => polyRem (clmul (2 ^ i) y))
    (fun x y => gf_mul_xor_right _ x y)
    (fun x y => by simp only [clmul_xor_right, polyRem_xor])
    (fun j hj => (reference_basis i hi j hj).1) b hb

theorem clmul_eq_quot_rem (a b : Nat) (ha : a < 256) (hb : b < 256) :
    clmul a b = clmul 0x11B (polyQuot (clmul a b)) ^^^ field.mul a b := by
  refine additive_ext (fun x => clmul x b)
    (fun x => clmul 0x11B (polyQuot (clmul x b)) ^^^ field.mul x b)
    (fun x y => clmul_xor_left x y b)
    (fun x y => by
      simp only [clmul_xor_left, polyQuot_xor, clmul_xor_right, gf_mul_xor_left]
      simp [Nat.xor_assoc, Nat.xor_comm, nat_xor_left_comm]) ?_ a ha
  intro i hi
  exact additive_ext (fun y => clmul (2 ^ i) y)
    (fun y => clmul 0x11B (polyQuot (clmul (2 ^ i) y)) ^^^ field.mul (2 ^ i) y)
    (fun x y => clmul_xor_right _ x y)
    (fun x y => by
      simp only [clmul_xor_right, polyQuot_xor, gf_mul_xor_right]
      simp [Nat.xor_assoc, Nat.xor_comm, nat_xor_left_comm])
    (fun j hj => (reference_basis i hi j hj).2) b hb

/-! ## More on `interpolate` and `recoverSecret` -/

theorem distinctBytes_of_nodup (xs : List Nat) (hb : ∀ v ∈ xs, v < 256) (hd : xs.Nodup) :
    DistinctBytes xs := by
  intro i hi j hj hij e
  have hi' := hb _ (getD_mem xs i 0 hi)
  have hj' := hb _ (getD_mem xs j 0 hj)
  rw [Nat.mod_eq_of_lt hi', Nat.mod_eq_of_lt hj', List.getD_eq_getElem xs 0 hi,
    List.getD_eq_getElem xs 0 hj] at e
  exact hij ((List.Nodup.getElem_inj_iff hd).1 e)

theorem foldl_congr_fun {α β : Type} (f g : α → β → α) (h : ∀ a b, f a b = g a b)
    (init : α) (l : List β) : List.foldl f init l = List.foldl g init l := by
  have : f = g := by
    funext a b
    exact h a b
  rw [this]

theorem tail_eq_map_getD (l : List Nat) (M : Nat) (hl : l.length = M + 1) :
    (List.range M).map (fun b => l.getD (b + 1) 0) = l.tail := by
  cases l with
  | nil => simp at hl
  | cons a rest =>
    simp only [List.length_cons, Nat.add_right_cancel_iff] at hl
    simp only [List.getD_cons_succ, List.tail_cons]
    rw [← hl]
    exact range_map_getD rest

theorem distinct_of_nodup_mod (shareIds : List Int)
    (hd : (shareIds.map (fun id => id % 256)).Nodup) :
    ∀ i < shareIds.length, ∀ j < shareIds.length, i ≠ j →
      shareIds.getD i 0 % 256 ≠ shareIds.getD j 0 % 256 := by
  intro i hi j hj hij e
  rw [List.getD_eq_getElem shareIds 0 hi, List.getD_eq_getElem shareIds 0 hj] at e
  have hi' : i < (shareIds.map (fun id => id % 256)).length := by simpa using hi
  have hj' : j < (shareIds.map (fun id => id % 256)).length := by simpa using hj
  have e' : (shareIds.map (fun id => id % 256))[i] = (shareIds.map (fun id => id % 256))[j] := by
    simpa using e
  exact hij ((List.Nodup.getElem_inj_iff hd).1 e')

/-- Every pair (id, share) of a reordered call is a pair of the original call. -/
theorem zip_perm_lookup (ids ids' : List Int) (shares shares' : List (List Nat))
    (hl : ids.length = shares.length) (hl' : ids'.length = shares'.length)
    (hperm : (ids'.zip shares').Perm (ids.zip shares)) (i : Nat) (hi : i < shares'.length) :
    ∃ k < shares.length, ids'.getD i 0 = ids.getD k 0 ∧
      shares'.getD i [] = shares.getD k [] := by
  have hiz : i < (ids'.zip shares').length := by simp [hl']; exact hi
  have hmem : (ids'.zip shares')[i] ∈ ids.zip shares :=
    hperm.mem_iff.1 (List.getElem_mem _)
  obtain ⟨k, hk, e⟩ := List.getElem_of_mem hmem
  have hk' : k < shares.length := by
    simp only [List.length_zip, hl, Nat.min_self] at hk
    exact hk
  refine ⟨k, hk', ?_, ?_⟩
  · have := congrArg Prod.fst e
    simp only [List.getElem_zip] at this
    rw [List.getD_eq_getElem ids' 0 (by omega), List.getD_eq_getElem ids 0 (by omega)]
    exact this.symm
  · have := congrArg Prod.snd e
    simp only [List.getElem_zip] at this
    rw [List.getD_eq_getElem shares' [] hi, List.getD_eq_getElem shares [] hk']
    exact this.symm

/-! ## Claims -/

/-- C1: round trip. For every secret of at least one byte, all `2 ≤ threshold ≤
totalShares ≤ 255` and every random source, if `splitSecret` returns `shares`, then for
every list `selected` of at least `threshold` pairwise different shares among the returned
ones, in any order, with the first byte of each selected share as its id, `recoverSecret`
succeeds and returns exactly the secret. -/
theorem split_recover_roundtrip (rand : Nat → Nat) (secret : List Nat)
    (totalShares threshold : Int) (shares selected : List (List Nat))
    (hL : 1 ≤ secret.length) (hbytes : ∀ b ∈ secret, b < 256)
    (h2 : 2 ≤ threshold) (hle : threshold ≤ totalShares) (h255 : totalShares ≤ 255)
    (hsplit : splitSecret rand secret totalShares threshold = Except.ok shares)
    (hsub : ∀ s ∈ selected, s ∈ shares) (hnodup : selected.Nodup)
    (hk : threshold ≤ selected.length) :
    recoverSecret (selected.map (fun s => (s.headD 0 : Int))) selected
      = Except.ok secret := by
  rw [splitSecret_ok rand secret totalShares threshold h2 hle h255] at hsplit
  have hshares : shares = splitShares rand secret totalShares.toNat threshold.toNat := by
    injection hsplit with h
    exact h.symm
  subst hshares
  have hn : 2 ≤ selected.length := by omega
  -- every selected share is the share of some index
  have hex : ∀ j, ∃ k, j < selected.length →
      (k < totalShares.toNat ∧ selected.getD j []
        = ((k + 1) % 256) :: (List.range secret.length).map (fun i =>
          evaluatePolynomial (splitCoefficients rand secret threshold.toNat i)
            ((k + 1) % 256))) := by
    intro j
    by_cases hj : j < selected.length
    · obtain ⟨k, hk1, hk2⟩ := mem_splitShares rand secret totalShares.toNat threshold.toNat
        hL _ (hsub _ (getD_mem selected j [] hj))
      exact ⟨k, fun _ => ⟨hk1, hk2⟩⟩
    · exact ⟨0, fun h => absurd h hj⟩
  choose κ hκ using hex
  have hκ255 : ∀ j < selected.length, (κ j + 1) % 256 = κ j + 1 := by
    intro j hj
    have := (hκ j hj).1
    exact Nat.mod_eq_of_lt (by omega)
  have hinj : ∀ i < selected.length, ∀ j < selected.length, κ i = κ j → i = j := by
    intro i hi j hj e
    have e2 : selected.getD i [] = selected.getD j [] := by
      rw [(hκ i hi).2, (hκ j hj).2, e]
    rw [List.getD_eq_getElem _ _ hi, List.getD_eq_getElem _ _ hj] at e2
    exact (List.Nodup.getElem_inj_iff hnodup).1 e2
  have hidb : ∀ j < selected.length,
      idByte (selected.map (fun s => (s.headD 0 : Int))) j = κ j + 1 := by
    intro j hj
    unfold idByte
    have e : (selected.map (fun s => (s.headD 0 : Int))).getD j 0
        = (((selected.getD j []).headD 0 : Nat) : Int) := by
      simp [List.getD_eq_getElem?_getD, List.getElem?_eq_getElem hj]
    rw [e, (hκ j hj).2, List.headD_cons, cast_byte, Nat.mod_mod, hκ255 j hj]
  have hlen : ∀ i < selected.length, (selected.getD i []).length = secret.length + 1 := by
    intro i hi
    rw [(hκ i hi).2]
    simp
  have hids : selected.length ≤ (selected.map (fun s => (s.headD 0 : Int))).length := by
    simp
  have hd : DistinctBytes (gatheredX (selected.map (fun s => (s.headD 0 : Int)))
      selected.length) := by
    intro i hi j hj hij
    rw [gatheredX_length] at hi hj
    rw [gatheredX_getD _ _ _ hi, gatheredX_getD _ _ _ hj, hidb i hi, hidb j hj,
      ← hκ255 i hi, ← hκ255 j hj, Nat.mod_mod, Nat.mod_mod, hκ255 i hi, hκ255 j hj]
    intro e
    exact hij (hinj i hi j hj (by omega))
  have hv : ∀ b < secret.length,
      interpolate (gatheredX (selected.map (fun s => (s.headD 0 : Int))) selected.length)
        (gatheredY selected b) 0 = Except.ok (secret.getD b 0) := by
    intro b hb
    obtain ⟨p, hp, hev⟩ :=
      evaluatePolynomial_poly (splitCoefficients rand secret threshold.toNat b)
    have hclen : (splitCoefficients rand secret threshold.toNat b).length
        = threshold.toNat := by
      simp [splitCoefficients]
      omega
    have hdeg : p.degree < ((gatheredX (selected.map (fun s => (s.headD 0 : Int)))
        selected.length).length : WithBot ℕ) := by
      rw [gatheredX_length]
      refine lt_of_lt_of_le hp ?_
      rw [hclen]
      exact_mod_cast (by omega : threshold.toNat ≤ selected.length)
    obtain ⟨r, hr, er, br⟩ := interpolate_poly _ (gatheredY selected b) 0
      (by rw [gatheredX_length, gatheredY_length]) hd p hdeg (by
        intro k hk'
        rw [gatheredX_length] at hk'
        rw [gatheredX_getD _ _ _ hk', gatheredY_getD' _ _ _ hk', hidb k hk', (hκ k hk').2,
          List.getD_cons_succ, ← hev, hκ255 k hk']
        congr 1
        simp [List.getD_eq_getElem?_getD, List.getElem?_range, hb])
    rw [hr]
    congr 1
    have hr256 : r < 256 := br (Or.inl (by rw [gatheredX_length]; exact hn))
    have hs256 : secret.getD b 0 < 256 := hbytes _ (getD_mem secret b 0 hb)
    apply ofNat_injOn hr256 hs256
    rw [er, ← hev]
    have hz : evaluatePolynomial (splitCoefficients rand secret threshold.toNat b) 0
        = secret.getD b 0 % 256 := evaluatePolynomial_zero _ _
    rw [hz, ofNat_mod]
  rw [recoverSecret_ok _ selected secret.length hn hlen hids (fun b => secret.getD b 0) hv,
    range_map_getD]

/-- The round trip on the secret `[42]` split 3-of-5, recovered from the shares 5, 1, 3. -/
theorem split_recover_roundtrip_witness :
    1 ≤ [42].length ∧ (∀ b ∈ [42], b < 256) ∧
    (2 : Int) ≤ 3 ∧ (3 : Int) ≤ 5 ∧ (5 : Int) ≤ 255 ∧
    splitSecret (fun k => 17 * k + 200) [42] 5 3
      = Except.ok [[1, 59], [2, 232], [3, 249], [4, 24], [5, 9]] ∧
    (∀ s ∈ [[5, 9], [1, 59], [3, 249]],
      s ∈ [[1, 59], [2, 232], [3, 249], [4, 24], [5, 9]]) ∧
    [[5, 9], [1, 59], [3, 249]].Nodup ∧
    (3 : Int) ≤ [[5, 9], [1, 59], [3, 249]].length ∧
    recoverSecret ([[5, 9], [1, 59], [3, 249]].map (fun s => (s.headD 0 : Int)))
      [[5, 9], [1, 59], [3, 249]] = Except.ok [42] :=
  ⟨by decide, by decide, by decide, by decide, by decide, by decide!, by decide, by decide,
    by decide,
    split_recover_roundtrip (fun k => 17 * k + 200) [42] 5 3
      [[1, 59], [2, 232], [3, 249], [4, 24], [5, 9]] [[5, 9], [1, 59], [3, 249]]
      (by decide) (by decide) (by decide) (by decide) (by decide) (by decide!) (by decide)
      (by decide) (by decide)⟩

/-- C2: `splitSecret` returns shares exactly on the valid parameter range: for every
random source, every secret of any length and all integers `totalShares`, `threshold`, it
returns shares if and only if `2 ≤ threshold ≤ totalShares ≤ 255`, and it throws
`std::invalid_argument` if and only if that range is left (so `threshold = 1`,
`threshold > totalShares` and `totalShares = 256` are rejected, and `threshold = 2` with
`totalShares = 255` is accepted). -/
theorem splitSecret_accepts_iff (rand : Nat → Nat) (secret : List Nat)
    (totalShares threshold : Int) :
    ((∃ shares, splitSecret rand secret totalShares threshold = Except.ok shares)
        ↔ (2 ≤ threshold ∧ threshold ≤ totalShares ∧ totalShares ≤ 255)) ∧
    ((∃ what, splitSecret rand secret totalShares threshold
          = Except.error (Exn.invalid_argument what))
        ↔ ¬ (2 ≤ threshold ∧ threshold ≤ totalShares ∧ totalShares ≤ 255)) := by
  by_cases hv : 2 ≤ threshold ∧ threshold ≤ totalShares ∧ totalShares ≤ 255
  · have h := splitSecret_ok rand secret totalShares threshold hv.1 hv.2.1 hv.2.2
    constructor
    · exact ⟨fun _ => hv, fun _ => ⟨_, h⟩⟩
    · constructor
      · rintro ⟨what, hw⟩
        rw [h] at hw
        cases hw
      · intro hn
        exact absurd hv hn
  · have h : ∃ what, splitSecret rand secret totalShares threshold
        = Except.error (Exn.invalid_argument what) := by
      unfold splitSecret splitSecretRun
      by_cases h1 : threshold > totalShares
      · rw [if_pos h1]; exact ⟨_, rfl⟩
      · rw [if_neg h1]
        by_cases h2 : threshold < 2
        · rw [if_pos h2]; exact ⟨_, rfl⟩
        · rw [if_neg h2]
          by_cases h3 : totalShares > 255
          · rw [if_pos h3]; exact ⟨_, rfl⟩
          · exfalso
            apply hv
            omega
    constructor
    · constructor
      · rintro ⟨shares, hs⟩
        obtain ⟨what, hw⟩ := h
        rw [hw] at hs
        cases hs
      · intro hv'
        exact absurd hv' hv
    · exact ⟨fun _ => hv, fun _ => h⟩

/-- C3: for a secret of length `L ≥ 1`, `2 ≤ threshold ≤ totalShares ≤ 255` and every
random source, `splitSecret` returns exactly `totalShares` shares; the share at position
`k` (0-based) has length `L + 1` and first byte `k + 1`; so the x-coordinates are
`1, 2, ..., totalShares` in increasing order, lie in `[1, 255]`, are never 0 and are
pairwise distinct. -/
theorem splitSecret_shape (rand : Nat → Nat) (secret : List Nat)
    (totalShares threshold : Int) (hL : 1 ≤ secret.length)
    (h2 : 2 ≤ threshold) (hle : threshold ≤ totalShares) (h255 : totalShares ≤ 255) :
    ∃ shares, splitSecret rand secret totalShares threshold = Except.ok shares ∧
      (shares.length : Int) = totalShares ∧
      (∀ k < shares.length, (shares.getD k []).length = secret.length + 1 ∧
        (shares.getD k []).head? = some (k + 1)) ∧
      shares.map (fun s => s.headD 0) = List.range' 1 shares.length ∧
      (shares.map (fun s => s.headD 0)).Nodup ∧
      (∀ x ∈ shares.map (fun s => s.headD 0), 1 ≤ x ∧ x ≤ 255) := by
  refine ⟨_, splitSecret_ok rand secret totalShares threshold h2 hle h255, ?_⟩
  have hlenN := splitShares_length rand secret totalShares.toNat threshold.toNat
  have hhead : (splitShares rand secret totalShares.toNat threshold.toNat).map
      (fun s => s.headD 0) = List.range' 1 totalShares.toNat := by
    apply List.ext_getElem
    · simp [hlenN]
    · intro k h1 h2'
      have hk : k < totalShares.toNat := by simpa using h2'
      have hg := splitShares_getD rand secret totalShares.toNat threshold.toNat k hL hk
      rw [List.getD_eq_getElem _ _ (by omega)] at hg
      simp only [List.getElem_map, List.getElem_range', hg, List.headD_cons]
      omega
  refine ⟨by omega, ?_, ?_, ?_, ?_⟩
  · intro k hk
    rw [hlenN] at hk
    rw [splitShares_getD rand secret totalShares.toNat threshold.toNat k hL hk]
    refine ⟨by simp, ?_⟩
    simp only [List.head?_cons, Option.some.injEq]
    omega
  · rw [hlenN]; exact hhead
  · rw [hhead]; exact List.nodup_range' 1 _
  · intro x hx
    rw [hhead] at hx
    have := List.mem_range'_1.1 hx
    omega

/-- The shape of the five shares of the secret `[42]`. -/
theorem splitSecret_shape_witness :
    1 ≤ [42].length ∧ (2 : Int) ≤ 3 ∧ (3 : Int) ≤ 5 ∧ (5 : Int) ≤ 255 ∧
    ∃ shares, splitSecret (fun k => 17 * k + 200) [42] 5 3 = Except.ok shares ∧
      (shares.length : Int) = 5 ∧
      (∀ k < shares.length, (shares.getD k []).length = [42].length + 1 ∧
        (shares.getD k []).head? = some (k + 1)) ∧
      shares.map (fun s => s.headD 0) = List.range' 1 shares.length ∧
      (shares.map (fun s => s.headD 0)).Nodup ∧
      (∀ x ∈ shares.map (fun s => s.headD 0), 1 ≤ x ∧ x ≤ 255) :=
  ⟨by decide, by decide, by decide, by decide,
    splitSecret_shape (fun k => 17 * k + 200) [42] 5 3 (by decide) (by decide) (by decide)
      (by decide)⟩

/-- C4: for valid parameters and the random bytes `rand 0, rand 1, ...` consumed in order,
byte `i + 1` of share `k` is `evaluatePolynomial(c_i, k + 1)`, where `c_i` has length
`threshold`, starts with `secret[i]` and continues with the random bytes
`rand (i * (threshold - 1)) .. rand (i * (threshold - 1) + threshold - 2)`; the split draws
exactly `len(secret) * (threshold - 1)` random bytes, and no random byte serves two
different byte positions. -/
theorem splitSecret_values (rand : Nat → Nat) (secret : List Nat)
    (totalShares threshold : Int)
    (h2 : 2 ≤ threshold) (hle : threshold ≤ totalShares) (h255 : totalShares ≤ 255) :
    ∃ shares, splitSecretRun rand secret totalShares threshold
        = Except.ok (shares, secret.length * (threshold.toNat - 1)) ∧
      (∀ i < secret.length, ∀ k < totalShares.toNat,
        (secret.getD i 0 :: (List.range (threshold.toNat - 1)).map
            (fun u => rand (i * (threshold.toNat - 1) + u) % 256)).length = threshold.toNat ∧
        (shares.getD k []).getD (i + 1) 0
          = evaluatePolynomial
              (secret.getD i 0 :: (List.range (threshold.toNat - 1)).map
                (fun u => rand (i * (threshold.toNat - 1) + u) % 256))
              (k + 1)) ∧
      (∀ i j u v, u < threshold.toNat - 1 → v < threshold.toNat - 1 →
        i * (threshold.toNat - 1) + u = j * (threshold.toNat - 1) + v → i = j ∧ u = v) := by
  refine ⟨_, splitSecretRun_ok rand secret totalShares threshold h2 hle h255, ?_, ?_⟩
  · intro i hi k hk
    constructor
    · simp only [List.length_cons, List.length_map, List.length_range]
      omega
    · rw [splitShares_getD rand secret totalShares.toNat threshold.toNat k (by omega) hk]
      have hk' : (k + 1) % 256 = k + 1 := Nat.mod_eq_of_lt (by omega)
      rw [hk']
      simp only [List.getD_cons_succ]
      simp [List.getD_eq_getElem?_getD, List.getElem?_range, hi, splitCoefficients]
  · intro i j u v hu hv h
    generalize threshold.toNat - 1 = m at hu hv h
    have hij : i = j := by
      rcases Nat.lt_trichotomy i j with hlt | heq | hgt
      · exfalso
        have : (i + 1) * m ≤ j * m := Nat.mul_le_mul_right m hlt
        rw [Nat.add_mul] at this
        omega
      · exact heq
      · exfalso
        have : (j + 1) * m ≤ i * m := Nat.mul_le_mul_right m hgt
        rw [Nat.add_mul] at this
        omega
    subst hij
    exact ⟨rfl, by omega⟩

/-- The share values of the secret `[42, 43]` split 3-of-5. -/
theorem splitSecret_values_witness :
    (2 : Int) ≤ 3 ∧ (3 : Int) ≤ 5 ∧ (5 : Int) ≤ 255 ∧
    ∃ shares, splitSecretRun (fun k => 17 * k + 200) [42, 43] 5 3
        = Except.ok (shares, [42, 43].length * ((3 : Int).toNat - 1)) ∧
      (∀ i < [42, 43].length, ∀ k < (5 : Int).toNat,
        (([42, 43] : List Nat).getD i 0 :: (List.range ((3 : Int).toNat - 1)).map
            (fun u => (fun k => 17 * k + 200) (i * ((3 : Int).toNat - 1) + u) % 256)).length
          = (3 : Int).toNat ∧
        (shares.getD k []).getD (i + 1) 0
          = evaluatePolynomial
              (([42, 43] : List Nat).getD i 0 :: (List.range ((3 : Int).toNat - 1)).map
                (fun u => (fun k => 17 * k + 200) (i * ((3 : Int).toNat - 1) + u) % 256))
              (k + 1)) ∧
      (∀ i j u v, u < (3 : Int).toNat - 1 → v < (3 : Int).toNat - 1 →
        i * ((3 : Int).toNat - 1) + u = j * ((3 : Int).toNat - 1) + v → i = j ∧ u = v) :=
  ⟨by decide, by decide, by decide,
    splitSecret_values (fun k => 17 * k + 200) [42, 43] 5 3 (by decide) (by decide)
      (by decide)⟩

/-- C5: for `n ≥ 2` shares of one length `M ≥ 1` and `n` share ids that are pairwise
different as bytes, `recoverSecret` succeeds and returns a secret of length
`M - 1 = shares[0].length - 1` whose byte `i` is the XOR over `j` of
`y_j * Π_{m ≠ j} x_m / (x_j XOR x_m)` with `x_j = shareIds[j]` as a byte,
`y_j = shares[j][i + 1]`, and `*`, `/` the operations `field::mul`, `field::div`. -/
theorem recoverSecret_lagrange (shareIds : List Int) (shares : List (List Nat)) (M : Nat)
    (hn : 2 ≤ shares.length) (hM : 1 ≤ M) (hlen : ∀ s ∈ shares, s.length = M)
    (hids : shareIds.length = shares.length)
    (hd : ∀ i < shareIds.length, ∀ j < shareIds.length, i ≠ j →
      shareIds.getD i 0 % 256 ≠ shareIds.getD j 0 % 256) :
    ∃ secret, recoverSecret shareIds shares = Except.ok secret ∧
      secret.length = M - 1 ∧ secret.length = (shares.getD 0 []).length - 1 ∧
      ∀ i < M - 1, secret.getD i 0
        = specLagrangeAtZero (shareIds.map (fun id => (id % 256).toNat))
            (shares.map (fun s => s.getD (i + 1) 0)) := by
  have hlen' : ∀ i < shares.length, (shares.getD i []).length = (M - 1) + 1 := by
    intro i hi
    rw [hlen _ (getD_mem shares i [] hi)]
    omega
  have hx : gatheredX shareIds shares.length
      = shareIds.map (fun id => (id % 256).toNat) := by
    rw [← hids]
    exact gatheredX_eq_map shareIds
  have hdx : DistinctBytes (gatheredX shareIds shares.length) :=
    distinct_gatheredX shareIds shares.length (by rw [← hids]; exact hd)
  have hv : ∀ b < M - 1, interpolate (gatheredX shareIds shares.length)
      (gatheredY shares b) 0
      = Except.ok (specLagrangeAtZero (shareIds.map (fun id => (id % 256).toNat))
          (shares.map (fun s => s.getD (b + 1) 0))) := by
    intro b _
    rw [← hx, ← gatheredY_eq_map]
    exact interpolate_eq_spec _ _ (by rw [gatheredX_length, gatheredY_length]) hdx
      (by rw [gatheredX_length]; exact hn)
  refine ⟨_, recoverSecret_ok shareIds shares (M - 1) (by omega) hlen' (by omega) _ hv,
    by simp, ?_, ?_⟩
  · rw [hlen' 0 (by omega)]
    simp
  · intro i hi
    simp [List.getElem?_range, hi]

/-- The recovery from three shares of two bytes each. -/
theorem recoverSecret_lagrange_witness :
    2 ≤ [[1, 59], [3, 249], [5, 9]].length ∧ 1 ≤ 2 ∧
    (∀ s ∈ [[1, 59], [3, 249], [5, 9]], s.length = 2) ∧
    ([1, 3, 5] : List Int).length = [[1, 59], [3, 249], [5, 9]].length ∧
    ∃ secret, recoverSecret [1, 3, 5] [[1, 59], [3, 249], [5, 9]] = Except.ok secret ∧
      secret.length = 2 - 1 ∧
      secret.length = ([[1, 59], [3, 249], [5, 9]].getD 0 []).length - 1 ∧
      ∀ i < 2 - 1, secret.getD i 0
        = specLagrangeAtZero (([1, 3, 5] : List Int).map (fun id => (id % 256).toNat))
            ([[1, 59], [3, 249], [5, 9]].map (fun s => s.getD (i + 1) 0)) :=
  ⟨by decide, by decide, by decide, by decide,
    recoverSecret_lagrange [1, 3, 5] [[1, 59], [3, 249], [5, 9]] 2 (by decide) (by decide)
      (by decide) (by decide) (by decide)⟩

/-- C6: with fewer than 2 shares (none or one), whatever the share ids and the share
hold, `recoverSecret` throws `std::invalid_argument("At least 2 shares are required")` and
returns no secret. -/
theorem recoverSecret_insufficient_shares (shareIds : List Int) (shares : List (List Nat))
    (h : shares.length < 2) :
    recoverSecret shareIds shares
      = Except.error (Exn.invalid_argument "At least 2 shares are required") := by
  unfold recoverSecret
  rw [if_pos h]
  rfl

/-- The recovery from a single share is refused. -/
theorem recoverSecret_insufficient_shares_witness :
    [[1, 59]].length < 2 ∧
    recoverSecret [1] [[1, 59]]
      = Except.error (Exn.invalid_argument "At least 2 shares are required") :=
  ⟨by decide, recoverSecret_insufficient_shares [1] [[1, 59]] (by decide)⟩

/-- C7 (the code at the failing input): with the two shares `[]` and `[7]`, which differ
in length, and the ids 1 and 2, `secretSize = shares[0].size() - 1` wraps around, the
constructor of `y_values` throws `std::length_error`, and the loop that throws
`"Shares have inconsistent sizes"` is never reached. -/
theorem recoverSecret_empty_first_share :
    recoverSecret [1, 2] [[], [7]] = Except.error Exn.length_error := by
  decide

/-- C8 (counterexample): three share ids for two shares of equal length: `recoverSecret`
does not throw `"Shares have inconsistent sizes"`, it returns a secret. -/
theorem recoverSecret_three_ids_two_shares :
    ([1, 2, 3] : List Int).length ≠ [[1, 5], [2, 6]].length ∧
    2 ≤ [[1, 5], [2, 6]].length ∧ (∀ s ∈ [[1, 5], [2, 6]], s.length = 2) ∧
    recoverSecret [1, 2, 3] [[1, 5], [2, 6]] = Except.ok [4] := by
  decide!

/-- C8 (amended): with at least 2 shares of equal length and more share ids than shares,
`recoverSecret` does not compare the two counts: it reads the first `shares.length` ids
only, so its outcome is the outcome on those ids, and that outcome is never the
`"Shares have inconsistent sizes"` error. -/
theorem recoverSecret_surplus_ids (shareIds : List Int) (shares : List (List Nat)) (M : Nat)
    (hn : 2 ≤ shares.length) (hlen : ∀ s ∈ shares, s.length = M)
    (hids : shares.length < shareIds.length) :
    recoverSecret shareIds shares = recoverSecret (shareIds.take shares.length) shares ∧
    recoverSecret shareIds shares
      ≠ Except.error (Exn.invalid_argument "Shares have inconsistent sizes") := by
  refine ⟨(recoverSecret_take shareIds shares).symm, ?_⟩
  have hlen0 : (shares.getD 0 []).length = M := hlen _ (getD_mem shares 0 [] (by omega))
  rcases Nat.eq_zero_or_pos M with hM | hM
  · have h : recoverSecret shareIds shares = Except.error Exn.length_error := by
      unfold recoverSecret
      rw [if_neg (by omega)]
      split
      · rfl
      · rename_i secretSize h
        omega
    rw [h]
    intro hc
    cases hc
  · have hlen' : ∀ i < shares.length, (shares.getD i []).length = (M - 1) + 1 := by
      intro i hi
      rw [hlen _ (getD_mem shares i [] hi)]
      omega
    rcases recoverSecret_outcome shareIds shares (M - 1) hn hlen' (by omega) with
      ⟨secret, h⟩ | h
    · rw [h]
      intro hc
      cases hc
    · rw [h]
      intro hc
      injection hc with hc
      injection hc with hc
      revert hc
      decide

/-- Three ids for two shares: the third id is not read. -/
theorem recoverSecret_surplus_ids_witness :
    2 ≤ [[1, 5], [2, 6]].length ∧ (∀ s ∈ [[1, 5], [2, 6]], s.length = 2) ∧
    [[1, 5], [2, 6]].length < ([1, 2, 3] : List Int).length ∧
    recoverSecret [1, 2, 3] [[1, 5], [2, 6]]
      = recoverSecret (([1, 2, 3] : List Int).take [[1, 5], [2, 6]].length) [[1, 5], [2, 6]] ∧
    recoverSecret [1, 2, 3] [[1, 5], [2, 6]]
      ≠ Except.error (Exn.invalid_argument "Shares have inconsistent sizes") :=
  ⟨by decide, by decide, by decide,
    recoverSecret_surplus_ids [1, 2, 3] [[1, 5], [2, 6]] 2 (by decide) (by decide)
      (by decide)⟩

/-- C9: duplicate ids are rejected. With `n ≥ 2` shares of one common length `M ≥ 2` (at
least one secret byte) and `n` share ids, two of which are equal, `recoverSecret` throws
the `"Division by zero"` error of `field::div` and returns no secret. -/
theorem recoverSecret_duplicate_ids (shareIds : List Int) (shares : List (List Nat))
    (M : Nat) (hn : 2 ≤ shares.length) (hM : 2 ≤ M) (hlen : ∀ s ∈ shares, s.length = M)
    (hids : shareIds.length = shares.length)
    (hdup : ∃ i < shareIds.length, ∃ j < shareIds.length, i ≠ j ∧
      shareIds.getD i 0 = shareIds.getD j 0) :
    recoverSecret shareIds shares
      = Except.error (Exn.invalid_argument "Division by zero") := by
  have hlen' : ∀ i < shares.length, (shares.getD i []).length = (M - 1) + 1 := by
    intro i hi
    rw [hlen _ (getD_mem shares i [] hi)]
    omega
  apply recoverSecret_dup_error shareIds shares (M - 1) hn (by omega) hlen' (by omega)
  obtain ⟨i, hi, j, hj, hij, e⟩ := hdup
  refine ⟨i, by omega, j, by omega, hij, ?_⟩
  unfold idByte
  rw [e]

/-- The ids `[2, 2]` with two different shares are rejected. -/
theorem recoverSecret_duplicate_ids_witness :
    2 ≤ [[2, 5], [2, 8]].length ∧ 2 ≤ 2 ∧ (∀ s ∈ [[2, 5], [2, 8]], s.length = 2) ∧
    ([2, 2] : List Int).length = [[2, 5], [2, 8]].length ∧
    (∃ i < ([2, 2] : List Int).length, ∃ j < ([2, 2] : List Int).length, i ≠ j ∧
      ([2, 2] : List Int).getD i 0 = ([2, 2] : List Int).getD j 0) ∧
    recoverSecret [2, 2] [[2, 5], [2, 8]]
      = Except.error (Exn.invalid_argument "Division by zero") :=
  ⟨by decide, by decide, by decide, by decide, ⟨0, by decide, 1, by decide, by decide, rfl⟩,
    recoverSecret_duplicate_ids [2, 2] [[2, 5], [2, 8]] 2 (by decide) (by decide)
      (by decide) (by decide) ⟨0, by decide, 1, by decide, by decide, rfl⟩⟩

/-- C10 (the code at the failing input): for the empty secret with `totalShares = 5` and
`threshold = 3` the byte loop of `splitSecret` never runs, so no share is resized and no
x-coordinate is stored: the five returned shares are empty, not of length 1. -/
theorem splitSecret_empty_secret (rand : Nat → Nat) :
    splitSecret rand [] 5 3 = Except.ok [[], [], [], [], []] := by
  rw [splitSecret_ok rand [] 5 3 (by decide) (by decide) (by decide)]
  rfl

/-- C11 (the code at the failing input): for the empty secret with `totalShares = 5` and
`threshold = 3`, `splitSecret` returns five empty shares, and `recoverSecret` on three of
them (positions 0, 1, 2, with whatever ids) does not return the empty secret: the
subtraction `shares[0].size() - 1` wraps around and the constructor of `y_values` throws
`std::length_error`. -/
theorem empty_secret_roundtrip_fails (rand : Nat → Nat) (shareIds : List Int) :
    ∃ shares, splitSecret rand [] 5 3 = Except.ok shares ∧
      recoverSecret shareIds [shares.getD 0 [], shares.getD 1 [], shares.getD 2 []]
        = Except.error Exn.length_error := by
  refine ⟨_, splitSecret_ok rand [] 5 3 (by decide) (by decide) (by decide), ?_⟩
  rfl

/-- C12: for every random source, every secret and all integers `totalShares` and
`threshold`, `splitSecret` throws one of the two threshold errors (`"Threshold must be at
least 2"`, `"Threshold cannot be greater than total shares"`) if and only if
`threshold < 2` or `threshold > totalShares`, whatever `totalShares` is (also above 255). -/
theorem splitSecret_threshold_error_iff (rand : Nat → Nat) (secret : List Nat)
    (totalShares threshold : Int) :
    (splitSecret rand secret totalShares threshold
        = Except.error (Exn.invalid_argument "Threshold must be at least 2") ∨
      splitSecret rand secret totalShares threshold
        = Except.error (Exn.invalid_argument "Threshold cannot be greater than total shares"))
      ↔ (threshold < 2 ∨ threshold > totalShares) := by
  unfold splitSecret splitSecretRun
  by_cases h1 : threshold > totalShares
  · rw [if_pos h1]
    exact ⟨fun _ => Or.inr h1, fun _ => Or.inr rfl⟩
  · rw [if_neg h1]
    by_cases h2 : threshold < 2
    · rw [if_pos h2]
      exact ⟨fun _ => Or.inl h2, fun _ => Or.inl rfl⟩
    · rw [if_neg h2]
      by_cases h3 : totalShares > 255
      · rw [if_pos h3]
        constructor
        · intro h
          rcases h with h | h
          · injection h with h
            injection h with h
            exact absurd h (by decide)
          · injection h with h
            injection h with h
            exact absurd h (by decide)
        · intro h
          omega
      · rw [if_neg h3]
        constructor
        · intro h
          rcases h with h | h <;> cases h
        · intro h
          omega

/-- C13 (counterexample): with `totalShares = 256 > 255` and `threshold = 300`, and with
`totalShares = 0 < 1` and `threshold = 3`, `splitSecret` throws a threshold error, not a
share-count error. -/
theorem splitSecret_threshold_guards_first :
    splitSecret (fun _ => 0) [42] 256 300
      = Except.error (Exn.invalid_argument "Threshold cannot be greater than total shares") ∧
    splitSecret (fun _ => 0) [42] 0 3
      = Except.error (Exn.invalid_argument "Threshold cannot be greater than total shares") := by
  decide

/-- C13 (amended): the threshold guards run first. For every random source, secret and
threshold: when `totalShares > 255` and `2 ≤ threshold ≤ totalShares`, `splitSecret` throws
`"Total shares cannot exceed 255"`; when `totalShares > 255` or `totalShares < 1`, and
`threshold < 2` or `threshold > totalShares`, it throws one of the two threshold errors;
and `totalShares < 1` always falls in that second case. -/
theorem splitSecret_share_count (rand : Nat → Nat) (secret : List Nat)
    (totalShares threshold : Int) :
    (totalShares > 255 → 2 ≤ threshold → threshold ≤ totalShares →
      splitSecret rand secret totalShares threshold
        = Except.error (Exn.invalid_argument "Total shares cannot exceed 255")) ∧
    ((totalShares > 255 ∨ totalShares < 1) → (threshold < 2 ∨ threshold > totalShares) →
      (splitSecret rand secret totalShares threshold
          = Except.error (Exn.invalid_argument "Threshold must be at least 2") ∨
        splitSecret rand secret totalShares threshold
          = Except.error
              (Exn.invalid_argument "Threshold cannot be greater than total shares"))) ∧
    (totalShares < 1 → (threshold < 2 ∨ threshold > totalShares)) := by
  refine ⟨?_, ?_, ?_⟩
  · intro h255 h2 hle
    unfold splitSecret splitSecretRun
    rw [if_neg (by omega), if_neg (by omega), if_pos h255]
    rfl
  · intro _ ht
    unfold splitSecret splitSecretRun
    by_cases h1 : threshold > totalShares
    · rw [if_pos h1]
      exact Or.inr rfl
    · rw [if_neg h1, if_pos (by omega)]
      exact Or.inl rfl
  · intro h
    omega

/-- The share count 256 with threshold 2 is refused with the share-count error. -/
theorem splitSecret_share_count_witness :
    (256 : Int) > 255 ∧ (2 : Int) ≤ 2 ∧ (2 : Int) ≤ 256 ∧
    splitSecret (fun _ => 0) [42] 256 2
      = Except.error (Exn.invalid_argument "Total shares cannot exceed 255") :=
  ⟨by decide, by decide, by decide,
    (splitSecret_share_count (fun _ => 0) [42] 256 2).1 (by decide) (by decide) (by decide)⟩

/-- C14: fewer than `threshold` shares leave every secret byte possible. For every
threshold `t` with `2 ≤ t ≤ 255`, every secret byte `s`, every list of `t - 1` pairwise
distinct x-coordinates in `1..255` and every list of `t - 1` target bytes `y`, there is
exactly one list `r` of `t - 1` coefficient bytes with
`evaluatePolynomial([s] ++ r, x_j) = y_j` for all `j` (`s` may be any number: `field::mul`
converts it to a byte). And `splitSecret` produces these values with exactly that choice of
its random coefficients: for every random source, every secret with `secret[i] = s` and
every `totalShares` with `t ≤ totalShares ≤ 255` that covers the x-coordinates, the split
succeeds, and byte `i + 1` of the share with x-coordinate `x_j` is `y_j` for all `j` if and
only if the `t - 1` random bytes drawn for byte position `i` are `r`. So the number of
random-coefficient choices that give `t - 1` shares their values at a byte position is 1,
whatever the secret byte is. -/
theorem under_threshold_unique_coefficients (t s : Nat) (xs ys : List Nat)
    (ht2 : 2 ≤ t) (ht255 : t ≤ 255)
    (hxlen : xs.length = t - 1) (hxr : ∀ x ∈ xs, 1 ≤ x ∧ x ≤ 255) (hxd : xs.Nodup)
    (hylen : ys.length = t - 1) (hyb : ∀ y ∈ ys, y < 256) :
    (∃! r : List Nat, r.length = t - 1 ∧ (∀ b ∈ r, b < 256) ∧
      ∀ j < t - 1, evaluatePolynomial ([s] ++ r) (xs.getD j 0) = ys.getD j 0) ∧
    ∀ r : List Nat, r.length = t - 1 → (∀ b ∈ r, b < 256) →
      (∀ j < t - 1, evaluatePolynomial ([s] ++ r) (xs.getD j 0) = ys.getD j 0) →
      ∀ (rand : Nat → Nat) (secret : List Nat) (totalShares : Int) (i : Nat),
        (t : Int) ≤ totalShares → totalShares ≤ 255 → i < secret.length →
        secret.getD i 0 = s → (∀ x ∈ xs, (x : Int) ≤ totalShares) →
        ∃ shares, splitSecretRun rand secret totalShares t
            = Except.ok (shares, secret.length * (t - 1)) ∧
          ((∀ j < t - 1, (shares.getD (xs.getD j 0 - 1) []).getD (i + 1) 0 = ys.getD j 0)
            ↔ ∀ u < t - 1, rand (i * (t - 1) + u) % 256 = r.getD u 0) := by
  have huniq : ∃! r : List Nat, r.length = t - 1 ∧ (∀ b ∈ r, b < 256) ∧
      ∀ j < t - 1, evaluatePolynomial ([s] ++ r) (xs.getD j 0) = ys.getD j 0 := by
    classical
    have hxj : ∀ j < t - 1, 1 ≤ xs.getD j 0 ∧ xs.getD j 0 < 256 := by
      intro j hj
      have := hxr _ (getD_mem xs j 0 (by omega))
      omega
    have hyj : ∀ j < t - 1, ys.getD j 0 < 256 := fun j hj =>
      hyb _ (getD_mem ys j 0 (by omega))
    have hv0 : ∀ j < t - 1, GF256.ofNat (xs.getD j 0) ≠ 0 := fun j hj =>
      ofNat_ne_zero (hxj j hj).1 (hxj j hj).2
    have hinj : Set.InjOn (fun j => GF256.ofNat (xs.getD j 0))
        (Finset.range (t - 1) : Set Nat) := by
      intro i hi j hj e
      simp only [Finset.coe_range, Set.mem_Iio] at hi hj
      have e2 := ofNat_injOn (hxj i hi).2 (hxj j hj).2 e
      rw [List.getD_eq_getElem xs 0 (show i < xs.length by omega),
        List.getD_eq_getElem xs 0 (show j < xs.length by omega)] at e2
      exact (List.Nodup.getElem_inj_iff hxd).1 e2
    -- the values that the tail polynomial must take
    have key : ∀ (r : List Nat) (q : Polynomial GF256),
        (∀ s x, GF256.ofNat (evaluatePolynomial (s :: r) x)
          = GF256.ofNat s + GF256.ofNat x * q.eval (GF256.ofNat x)) →
        ∀ j < t - 1, (evaluatePolynomial ([s] ++ r) (xs.getD j 0) = ys.getD j 0 ↔
          q.eval (GF256.ofNat (xs.getD j 0))
            = (GF256.ofNat (ys.getD j 0) + GF256.ofNat s) / GF256.ofNat (xs.getD j 0)) := by
      intro r q hq j hj
      have h0 := hv0 j hj
      constructor
      · intro h
        have h1 := hq s (xs.getD j 0)
        rw [List.singleton_append] at h
        rw [h] at h1
        rw [eq_div_iff h0, h1, mul_comm, add_comm (GF256.ofNat s), add_assoc, gf_add_self,
          add_zero]
      · intro h
        rw [List.singleton_append]
        apply ofNat_injOn (evaluatePolynomial_lt _ _) (hyj j hj)
        rw [hq s (xs.getD j 0), h, mul_div_cancel₀ _ h0, add_comm (GF256.ofNat (ys.getD j 0)),
          ← add_assoc, gf_add_self, zero_add]
    -- the tail polynomial, by Lagrange interpolation
    have hcard : (Finset.range (t - 1)).card = t - 1 := Finset.card_range _
    let w : Nat → GF256 := fun j =>
      (GF256.ofNat (ys.getD j 0) + GF256.ofNat s) / GF256.ofNat (xs.getD j 0)
    have hqdeg : (Lagrange.interpolate (Finset.range (t - 1))
        (fun j => GF256.ofNat (xs.getD j 0)) w).degree < ((t - 1 : Nat) : WithBot ℕ) := by
      have := Lagrange.degree_interpolate_lt (s := Finset.range (t - 1))
        (v := fun j => GF256.ofNat (xs.getD j 0)) w hinj
      rwa [hcard] at this
    have hqev : ∀ j < t - 1, (Lagrange.interpolate (Finset.range (t - 1))
        (fun j => GF256.ofNat (xs.getD j 0)) w).eval (GF256.ofNat (xs.getD j 0)) = w j :=
      fun j hj => Lagrange.eval_interpolate_at_node w hinj (Finset.mem_range.2 hj)
    generalize hQ : Lagrange.interpolate (Finset.range (t - 1))
        (fun j => GF256.ofNat (xs.getD j 0)) w = Q at hqdeg hqev
    refine ⟨(List.range (t - 1)).map (fun i => (Q.coeff i).val), ⟨by simp, ?_, ?_⟩, ?_⟩
    · intro b hb
      obtain ⟨i, _, rfl⟩ := List.mem_map.1 hb
      exact (Q.coeff i).isLt
    · obtain ⟨q, hqc, hqe⟩ :=
        evaluatePolynomial_cons_poly ((List.range (t - 1)).map (fun i => (Q.coeff i).val))
      have hqQ : q = Q := by
        ext i
        rw [hqc i]
        by_cases hi : i < t - 1
        · simp [List.getElem?_range, hi, ofNat_val_self]
        · rw [List.getD_eq_default _ _ (by simp; omega), ofNat_zero]
          exact (Polynomial.coeff_eq_zero_of_degree_lt
            (lt_of_lt_of_le hqdeg (by exact_mod_cast (by omega : t - 1 ≤ i)))).symm
      intro j hj
      rw [key _ q hqe j hj, hqQ]
      exact hqev j hj
    · rintro r' ⟨hlen', hb', heq'⟩
      obtain ⟨q, hqc, hqe⟩ := evaluatePolynomial_cons_poly r'
      have hdeg' : q.degree < ((t - 1 : Nat) : WithBot ℕ) := by
        have := degree_lt_of_coeff r' q hqc
        rwa [hlen'] at this
      have hqQ : q = Q := by
        refine Polynomial.eq_of_degrees_lt_of_eval_index_eq (Finset.range (t - 1)) hinj
          (by rwa [hcard]) (by rwa [hcard]) ?_
        intro j hj
        have hj' := Finset.mem_range.1 hj
        rw [(key r' q hqe j hj').1 (heq' j hj'), hqev j hj']
      apply List.ext_getElem
      · simp [hlen']
      · intro i h1 h2
        have hi : i < t - 1 := by omega
        simp only [List.getElem_map, List.getElem_range]
        have hc := hqc i
        rw [hqQ] at hc
        rw [hc, ofNat_val, List.getD_eq_getElem _ _ h1,
          Nat.mod_eq_of_lt (hb' _ (List.getElem_mem _))]
  refine ⟨huniq, ?_⟩
  intro r hrl hrb hre rand secret totalShares i htN hN255 hi hs hxN
  have hrun := splitSecretRun_ok rand secret totalShares (t : Int) (by omega) htN hN255
  simp only [Int.toNat_ofNat] at hrun
  refine ⟨_, hrun, ?_⟩
  -- the share bytes at position `i` are the values of the polynomial of that position
  have hval : ∀ j < t - 1,
      ((splitShares rand secret totalShares.toNat t).getD (xs.getD j 0 - 1) []).getD (i + 1) 0
        = evaluatePolynomial ([s] ++ (List.range (t - 1)).map
            (fun u => rand (i * (t - 1) + u) % 256)) (xs.getD j 0) := by
    intro j hj
    have hx := hxr _ (getD_mem xs j 0 (by omega))
    have hxN' := hxN _ (getD_mem xs j 0 (by omega))
    rw [splitShares_getD rand secret totalShares.toNat t (xs.getD j 0 - 1) (by omega)
      (by omega)]
    have hk : (xs.getD j 0 - 1 + 1) % 256 = xs.getD j 0 := by omega
    rw [hk, List.getD_cons_succ]
    have hs' : secret[i] = s := by
      rw [← hs, List.getD_eq_getElem secret 0 hi]
    simp [List.getD_eq_getElem?_getD, List.getElem?_range, hi, splitCoefficients, hs']
  constructor
  · intro h u hu
    have hd : (List.range (t - 1)).map (fun u => rand (i * (t - 1) + u) % 256) = r := by
      apply huniq.unique
      · refine ⟨by simp, ?_, ?_⟩
        · intro b hb
          obtain ⟨u, _, rfl⟩ := List.mem_map.1 hb
          exact Nat.mod_lt _ (by decide)
        · intro j hj
          rw [← hval j hj, h j hj]
      · exact ⟨hrl, hrb, hre⟩
    rw [← hd]
    simp [List.getD_eq_getElem?_getD, List.getElem?_range, hu]
  · intro h j hj
    have hd : (List.range (t - 1)).map (fun u => rand (i * (t - 1) + u) % 256) = r := by
      apply List.ext_getElem
      · simp [hrl]
      · intro u h1 h2
        have hu : u < t - 1 := by omega
        simp only [List.getElem_map, List.getElem_range]
        rw [h u hu, List.getD_eq_getElem r 0 h2]
    rw [hval j hj, hd]
    exact hre j hj

/-- The secret `[42]` split 3-of-5: the shares with x-coordinates 1 and 3 hold the bytes 59
and 249 exactly when the two random coefficients are 200 and 217. -/
theorem under_threshold_unique_coefficients_witness :
    2 ≤ 3 ∧ 3 ≤ 255 ∧ [1, 3].length = 3 - 1 ∧ (∀ x ∈ [1, 3], 1 ≤ x ∧ x ≤ 255) ∧
    [1, 3].Nodup ∧ [59, 249].length = 3 - 1 ∧ (∀ y ∈ [59, 249], y < 256) ∧
    ((3 : Nat) : Int) ≤ 5 ∧ (5 : Int) ≤ 255 ∧ 0 < [42].length ∧ [42].getD 0 0 = 42 ∧
    (∀ x ∈ [1, 3], ((x : Nat) : Int) ≤ 5) ∧
    (∃! r : List Nat, r.length = 3 - 1 ∧ (∀ b ∈ r, b < 256) ∧
      ∀ j < 3 - 1, evaluatePolynomial ([42] ++ r) ([1, 3].getD j 0) = [59, 249].getD j 0) ∧
    ∃ shares, splitSecretRun (fun k => 17 * k + 200) [42] 5 ((3 : Nat) : Int)
        = Except.ok (shares, [42].length * (3 - 1)) ∧
      ((∀ j < 3 - 1, (shares.getD ([1, 3].getD j 0 - 1) []).getD (0 + 1) 0
          = [59, 249].getD j 0)
        ↔ ∀ u < 3 - 1, (fun k => 17 * k + 200) (0 * (3 - 1) + u) % 256
          = [200, 217].getD u 0) :=
  have h := under_threshold_unique_coefficients 3 42 [1, 3] [59, 249] (by decide)
    (by decide) (by decide) (by decide) (by decide) (by decide) (by decide)
  ⟨by decide, by decide, by decide, by decide, by decide, by decide, by decide, by decide,
    by decide, by decide, by decide, by decide, h.1,
    h.2 [200, 217] (by decide) (by decide) (by decide)
      (fun k => 17 * k + 200) [42] 5 0 (by decide) (by decide) (by decide) (by decide)
      (by decide)⟩

/-- C15: under-threshold recovery. For the secret `[42]` split with `totalShares = 5` and
`threshold = 3`, `recoverSecret` on the two returned shares with ids 1 and 3 succeeds for
every random source, with a one-byte result that is a function of the two shares alone
(the value of the interpolation formula on their bytes); and for some random source that
byte is not 42. -/
theorem under_threshold_recovery :
    (∀ rand : Nat → Nat, ∃ shares, splitSecret rand [42] 5 3 = Except.ok shares ∧
      recoverSecret [1, 3] [shares.getD 0 [], shares.getD 2 []]
        = Except.ok [specLagrangeAtZero [1, 3]
            [(shares.getD 0 []).getD 1 0, (shares.getD 2 []).getD 1 0]]) ∧
    (∃ (rand : Nat → Nat) (shares : List (List Nat)) (b : Nat),
      splitSecret rand [42] 5 3 = Except.ok shares ∧
      recoverSecret [1, 3] [shares.getD 0 [], shares.getD 2 []] = Except.ok [b] ∧
      b ≠ 42) := by
  constructor
  · intro rand
    refine ⟨_, splitSecret_ok rand [42] 5 3 (by decide) (by decide) (by decide), ?_⟩
    have h0 := splitShares_getD rand [42] (5 : Int).toNat (3 : Int).toNat 0 (by decide)
      (by decide)
    have h2 := splitShares_getD rand [42] (5 : Int).toNat (3 : Int).toNat 2 (by decide)
      (by decide)
    rw [h0, h2]
    exact recoverSecret_ids_1_3 _ _
  · refine ⟨fun k => 17 * k + 200, [[1, 59], [2, 232], [3, 249], [4, 24], [5, 9]], 90,
      by decide!, by decide!, by decide⟩

/-- C16: division undoes multiplication: for all bytes `a` and `b` with `b ≠ 0`,
`field::div(field::mul(a, b), b)` returns `a`. -/
theorem field_div_mul_cancel (a b : Nat) (ha : a < 256) (hb : b < 256) (hb0 : b ≠ 0) :
    field.div (field.mul a b) b = Except.ok a := by
  have hne : GF256.ofNat b ≠ 0 := by
    intro h
    have := (ofNat_eq_zero_iff b).1 h
    rw [Nat.mod_eq_of_lt hb] at this
    exact hb0 this
  rw [div_ok _ _ hne]
  congr 1
  apply ofNat_injOn (gf_mul_lt _ _) ha
  rw [ofNat_div_value, ofNat_mul, mul_div_assoc, div_self hne, mul_one]

/-- The quotient of `0x57 * 0x83` by `0x83` is `0x57`. -/
theorem field_div_mul_cancel_witness :
    0x57 < 256 ∧ 0x83 < 256 ∧ 0x83 ≠ 0 ∧
    field.div (field.mul 0x57 0x83) 0x83 = Except.ok 0x57 :=
  ⟨by decide, by decide, by decide,
    field_div_mul_cancel 0x57 0x83 (by decide) (by decide) (by decide)⟩

/-- C17: for every byte `a` and every byte `b`, `field::div(a, b)` throws
`"Division by zero"` if and only if `b = 0`; for `b ≠ 0` it returns a byte. -/
theorem field_div_error_iff (a b : Nat) (hb : b < 256) :
    (field.div a b = Except.error (Exn.invalid_argument "Division by zero") ↔ b = 0) ∧
    (b ≠ 0 → ∃ q, q < 256 ∧ field.div a b = Except.ok q) := by
  have hmod : b % 256 = b := Nat.mod_eq_of_lt hb
  constructor
  · constructor
    · intro h
      by_contra hb0
      have hne : GF256.ofNat b ≠ 0 := fun h0 => hb0 (hmod ▸ (ofNat_eq_zero_iff b).1 h0)
      rw [div_ok _ _ hne] at h
      cases h
    · intro h
      exact div_error a b ((ofNat_eq_zero_iff b).2 (by rw [hmod]; exact h))
  · intro hb0
    have hne : GF256.ofNat b ≠ 0 := fun h0 => hb0 (hmod ▸ (ofNat_eq_zero_iff b).1 h0)
    exact ⟨_, gf_mul_lt _ _, div_ok a b hne⟩

/-- The divisor 0 is refused and the divisor 3 is accepted. -/
theorem field_div_error_iff_witness :
    0 < 256 ∧ 3 < 256 ∧
    ((field.div 7 0 = Except.error (Exn.invalid_argument "Division by zero") ↔ 0 = 0) ∧
      (0 ≠ 0 → ∃ q, q < 256 ∧ field.div 7 0 = Except.ok q)) ∧
    ((field.div 7 3 = Except.error (Exn.invalid_argument "Division by zero") ↔ 3 = 0) ∧
      (3 ≠ 0 → ∃ q, q < 256 ∧ field.div 7 3 = Except.ok q)) :=
  ⟨by decide, by decide, field_div_error_iff 7 0 (by decide),
    field_div_error_iff 7 3 (by decide)⟩

/-- C18: the 254th power is the inverse. For every byte `b ≠ 0`, the value `b_inv` that
`field::div` computes by multiplying 1 by `b` 254 times is what `field::div(1, b)`
returns, `field::mul(b, b_inv) = 1`, and `field::div(a, b)` returns
`field::mul(a, field::div(1, b))` for every byte `a`. -/
theorem field_inverse_254 (b : Nat) (hb : b < 256) (hb0 : b ≠ 0) :
    field.div 1 b = Except.ok (field.invLoop 254 1 b) ∧
    field.mul b (field.invLoop 254 1 b) = 1 ∧
    ∀ a, field.div a b = Except.ok (field.mul a (field.invLoop 254 1 b)) := by
  have hmod : b % 256 = b := Nat.mod_eq_of_lt hb
  have hne : GF256.ofNat b ≠ 0 := fun h0 => hb0 (hmod ▸ (ofNat_eq_zero_iff b).1 h0)
  refine ⟨?_, gf_mul_inv b (by rw [hmod]; exact hb0), fun a => div_ok a b hne⟩
  rw [div_ok _ _ hne, gf_one_mul, Nat.mod_eq_of_lt (invLoop_lt _ _ _ (by norm_num))]

/-- The inverse of the byte 3. -/
theorem field_inverse_254_witness :
    3 < 256 ∧ 3 ≠ 0 ∧
    field.div 1 3 = Except.ok (field.invLoop 254 1 3) ∧
    field.mul 3 (field.invLoop 254 1 3) = 1 ∧
    ∀ a, field.div a 3 = Except.ok (field.mul a (field.invLoop 254 1 3)) :=
  ⟨by decide, by decide, field_inverse_254 3 (by decide) (by decide)⟩

/-- C19: `field::mul` is commutative: `field::mul(a, b) = field::mul(b, a)` for all bytes
`a` and `b` (and for all arguments, which are converted to bytes). -/
theorem field_mul_comm (a b : Nat) : field.mul a b = field.mul b a :=
  gf_mul_comm a b

/-- C20: `field::mul` is associative: `field::mul(field::mul(a, b), c) =
field::mul(a, field::mul(b, c))` for all bytes `a`, `b`, `c` (and for all arguments, which
are converted to bytes). -/
theorem field_mul_assoc (a b c : Nat) :
    field.mul (field.mul a b) c = field.mul a (field.mul b c) :=
  gf_mul_assoc a b c

/-- C21: `field::mul` distributes over XOR: `field::mul(a, b XOR c) = field::mul(a, b) XOR
field::mul(a, c)` for all bytes `a`, `b`, `c` (and for all arguments, which are converted
to bytes). -/
theorem field_mul_distrib (a b c : Nat) :
    field.mul a (b ^^^ c) = field.mul a b ^^^ field.mul a c :=
  gf_mul_xor_right a b c

/-- C22: zero and one of the field: `field::mul(a, 0) = 0` and `field::mul(a, 1) = a` for
every byte `a`. -/
theorem field_mul_zero_one (a : Nat) (ha : a < 256) :
    field.mul a 0 = 0 ∧ field.mul a 1 = a :=
  ⟨gf_mul_zero a, gf_mul_one_lt a ha⟩

/-- The products of the byte `0x57` with 0 and with 1. -/
theorem field_mul_zero_one_witness :
    0x57 < 256 ∧ field.mul 0x57 0 = 0 ∧ field.mul 0x57 1 = 0x57 :=
  ⟨by decide, field_mul_zero_one 0x57 (by decide)⟩

/-- C23: `field::mul` is the reference product of GF(256). For all bytes `a` and `b`, read
as polynomials over GF(2) of degree below 8, `field::mul(a, b)` is the remainder of the
carry-less product `a * b` modulo `x^8 + x^4 + x^3 + x + 1` (`0x11B`): it is what long
division returns, it has degree below 8, and the product is `0x11B` times the quotient,
plus it. -/
theorem field_mul_reference (a b : Nat) (ha : a < 256) (hb : b < 256) :
    field.mul a b = polyRem (clmul a b) ∧
    field.mul a b < 256 ∧
    clmul a b = clmul 0x11B (polyQuot (clmul a b)) ^^^ field.mul a b :=
  ⟨mul_eq_polyRem a b ha hb, gf_mul_lt a b, clmul_eq_quot_rem a b ha hb⟩

/-- The product of the bytes `0x57` and `0x83`. -/
theorem field_mul_reference_witness :
    0x57 < 256 ∧ 0x83 < 256 ∧
    field.mul 0x57 0x83 = polyRem (clmul 0x57 0x83) ∧
    field.mul 0x57 0x83 < 256 ∧
    clmul 0x57 0x83 = clmul 0x11B (polyQuot (clmul 0x57 0x83)) ^^^ field.mul 0x57 0x83 :=
  ⟨by decide, by decide, field_mul_reference 0x57 0x83 (by decide) (by decide)⟩

/-- C24: `evaluatePolynomial` computes the polynomial value. For every coefficient list `c`
and every `x`, `evaluatePolynomial(c, x)` is the XOR over `i < len(c)` of
`field::mul(c[i], x^i)` with `x^0 = 1`, `x^(i+1) = field::mul(x^i, x)`; the empty list
gives 0; and for a non-empty list of bytes `evaluatePolynomial(c, 0) = c[0]`. -/
theorem evaluatePolynomial_value (c : List Nat) (x : Nat) :
    evaluatePolynomial c x = specPolyValue c x ∧
    evaluatePolynomial [] x = 0 ∧
    (∀ a rest, c = a :: rest → a < 256 → evaluatePolynomial c 0 = a) := by
  refine ⟨?_, rfl, ?_⟩
  · have h := evalLoop_eq_spec x c 0 0
    simp only [Nat.zero_add] at h
    exact h
  · intro a rest hc ha
    rw [hc, evaluatePolynomial_zero, Nat.mod_eq_of_lt ha]

/-- C25: Lagrange interpolation reproduces the polynomial. For every coefficient list `c`,
every list `xs` of pairwise distinct bytes with `len(xs) ≥ len(c)` and every `x`,
`interpolate(xs, [evaluatePolynomial(c, xi) for xi in xs], x)` succeeds and returns
`evaluatePolynomial(c, x)`; at `x = 0`, for a non-empty `c` whose first coefficient is a
byte, it returns `c[0]`. -/
theorem interpolate_reproduces (c xs : List Nat) (x : Nat) (hlen : c.length ≤ xs.length)
    (hxb : ∀ v ∈ xs, v < 256) (hxd : xs.Nodup) :
    interpolate xs (xs.map (evaluatePolynomial c)) x = Except.ok (evaluatePolynomial c x) ∧
    (∀ a rest, c = a :: rest → a < 256 →
      interpolate xs (xs.map (evaluatePolynomial c)) 0 = Except.ok a) := by
  have hd := distinctBytes_of_nodup xs hxb hxd
  obtain ⟨p, hp, hev⟩ := evaluatePolynomial_poly c
  have hdeg : p.degree < (xs.length : WithBot ℕ) :=
    lt_of_lt_of_le hp (by exact_mod_cast hlen)
  have hy : ∀ k < xs.length, (xs.map (evaluatePolynomial c)).getD k 0
      = evaluatePolynomial c (xs.getD k 0) := by
    intro k hk
    simp [List.getElem?_eq_getElem hk]
  have main : ∀ z, interpolate xs (xs.map (evaluatePolynomial c)) z
      = Except.ok (evaluatePolynomial c z) := by
    intro z
    obtain ⟨r, hr, er, br⟩ := interpolate_poly xs (xs.map (evaluatePolynomial c)) z
      (by simp) hd p hdeg (fun k hk => by rw [hy k hk, hev])
    rw [hr]
    congr 1
    apply ofNat_injOn (br (Or.inr (fun k hk => by
      rw [hy k hk]; exact evaluatePolynomial_lt _ _))) (evaluatePolynomial_lt _ _)
    rw [er, hev]
  refine ⟨main x, ?_⟩
  intro a rest hc ha
  rw [main 0, hc, evaluatePolynomial_zero, Nat.mod_eq_of_lt ha]

/-- The line `42 + 7 x` through the points 1, 2, 3. -/
theorem interpolate_reproduces_witness :
    [42, 7].length ≤ [1, 2, 3].length ∧ (∀ v ∈ [1, 2, 3], v < 256) ∧ [1, 2, 3].Nodup ∧
    interpolate [1, 2, 3] ([1, 2, 3].map (evaluatePolynomial [42, 7])) 5
      = Except.ok (evaluatePolynomial [42, 7] 5) ∧
    (∀ a rest, [42, 7] = a :: rest → a < 256 →
      interpolate [1, 2, 3] ([1, 2, 3].map (evaluatePolynomial [42, 7])) 0 = Except.ok a) :=
  ⟨by decide, by decide, by decide,
    interpolate_reproduces [42, 7] [1, 2, 3] 5 (by decide) (by decide) (by decide)⟩

/-- C26: recovery does not depend on the order of the shares. For `n ≥ 2` shares of one
length `M ≥ 1` with `n` share ids that are pairwise different as bytes, and every
reordering of the pairs (id, share), `recoverSecret` on the reordered ids and shares
returns the same secret as on the original ones. -/
theorem recoverSecret_order_independent (shareIds shareIds' : List Int)
    (shares shares' : List (List Nat)) (M : Nat)
    (hn : 2 ≤ shares.length) (hM : 1 ≤ M) (hlen : ∀ s ∈ shares, s.length = M)
    (hids : shareIds.length = shares.length)
    (hd : (shareIds.map (fun id => id % 256)).Nodup)
    (hids' : shareIds'.length = shares'.length)
    (hperm : (shareIds'.zip shares').Perm (shareIds.zip shares)) :
    ∃ secret, recoverSecret shareIds shares = Except.ok secret ∧
      recoverSecret shareIds' shares' = Except.ok secret := by
  -- the reordered call has the same shape
  have hnn : shares'.length = shares.length := by
    have := hperm.length_eq
    simp only [List.length_zip, hids, hids', Nat.min_self] at this
    exact this
  have hpi : shareIds'.Perm shareIds := by
    have := hperm.map Prod.fst
    rwa [List.map_fst_zip _ _ (by omega), List.map_fst_zip _ _ (by omega)] at this
  have hps : shares'.Perm shares := by
    have := hperm.map Prod.snd
    rwa [List.map_snd_zip _ _ (by omega), List.map_snd_zip _ _ (by omega)] at this
  have hd' : (shareIds'.map (fun id => id % 256)).Nodup :=
    ((hpi.map _).nodup_iff).2 hd
  have hlen1 : ∀ i < shares.length, (shares.getD i []).length = (M - 1) + 1 := by
    intro i hi
    rw [hlen _ (getD_mem shares i [] hi)]
    omega
  have hlen2 : ∀ i < shares'.length, (shares'.getD i []).length = (M - 1) + 1 := by
    intro i hi
    rw [hlen _ (hps.mem_iff.1 (getD_mem shares' i [] hi))]
    omega
  have hdx : DistinctBytes (gatheredX shareIds shares.length) :=
    distinct_gatheredX shareIds shares.length
      (by rw [← hids]; exact distinct_of_nodup_mod shareIds hd)
  have hdx' : DistinctBytes (gatheredX shareIds' shares'.length) :=
    distinct_gatheredX shareIds' shares'.length
      (by rw [← hids']; exact distinct_of_nodup_mod shareIds' hd')
  -- byte by byte, both calls interpolate the same polynomial
  have hbyte : ∀ b, ∃ r, interpolate (gatheredX shareIds shares.length)
      (gatheredY shares b) 0 = Except.ok r ∧
      interpolate (gatheredX shareIds' shares'.length) (gatheredY shares' b) 0
        = Except.ok r := by
    intro b
    obtain ⟨r, hr, er, br⟩ := interpolate_ok (gatheredX shareIds shares.length)
      (gatheredY shares b) 0 (by rw [gatheredX_length, gatheredY_length]) hdx
    obtain ⟨r', hr', er', br'⟩ := interpolate_ok (gatheredX shareIds' shares'.length)
      (gatheredY shares' b) 0 (by rw [gatheredX_length, gatheredY_length]) hdx'
    refine ⟨r, hr, ?_⟩
    rw [hr']
    congr 1
    apply ofNat_injOn (br' (Or.inl (by rw [gatheredX_length]; omega)))
      (br (Or.inl (by rw [gatheredX_length]; exact hn)))
    rw [er, er']
    congr 1
    symm
    apply Lagrange.eq_interpolate_of_eval_eq _ hdx'.injOn
    · have := Lagrange.degree_interpolate_lt
        (s := Finset.range (gatheredX shareIds shares.length).length)
        (v := fun k => GF256.ofNat ((gatheredX shareIds shares.length).getD k 0))
        (fun k => GF256.ofNat ((gatheredY shares b).getD k 0)) hdx.injOn
      simp only [Finset.card_range, gatheredX_length] at this ⊢
      rw [hnn]
      exact this
    · intro i hi
      have hi' : i < shares'.length := by
        have := Finset.mem_range.1 hi
        rwa [gatheredX_length] at this
      obtain ⟨k, hk, e1, e2⟩ := zip_perm_lookup shareIds shareIds' shares shares' hids hids'
        hperm i hi'
      have hxi : (gatheredX shareIds' shares'.length).getD i 0
          = (gatheredX shareIds shares.length).getD k 0 := by
        rw [gatheredX_getD _ _ _ hi', gatheredX_getD _ _ _ hk]
        unfold idByte
        rw [e1]
      have hyi : (gatheredY shares' b).getD i 0 = (gatheredY shares b).getD k 0 := by
        rw [gatheredY_getD' _ _ _ hi', gatheredY_getD' _ _ _ hk, e2]
      rw [hxi, hyi]
      exact Lagrange.eval_interpolate_at_node
        (fun k => GF256.ofNat ((gatheredY shares b).getD k 0)) hdx.injOn
        (Finset.mem_range.2 (by rw [gatheredX_length]; exact hk))
  choose v hv using hbyte
  exact ⟨_, recoverSecret_ok shareIds shares (M - 1) hn hlen1 (by omega) v
      (fun b _ => (hv b).1),
    recoverSecret_ok shareIds' shares' (M - 1) (by omega) hlen2 (by omega) v
      (fun b _ => (hv b).2)⟩

/-- The recovery from the shares 1, 3, 5 and from the same shares in the order 5, 1, 3. -/
theorem recoverSecret_order_independent_witness :
    2 ≤ [[1, 59], [3, 249], [5, 9]].length ∧ 1 ≤ 2 ∧
    (∀ s ∈ [[1, 59], [3, 249], [5, 9]], s.length = 2) ∧
    ([1, 3, 5] : List Int).length = [[1, 59], [3, 249], [5, 9]].length ∧
    (([1, 3, 5] : List Int).map (fun id => id % 256)).Nodup ∧
    ([5, 1, 3] : List Int).length = [[5, 9], [1, 59], [3, 249]].length ∧
    (([5, 1, 3] : List Int).zip [[5, 9], [1, 59], [3, 249]]).Perm
      (([1, 3, 5] : List Int).zip [[1, 59], [3, 249], [5, 9]]) ∧
    ∃ secret, recoverSecret [1, 3, 5] [[1, 59], [3, 249], [5, 9]] = Except.ok secret ∧
      recoverSecret [5, 1, 3] [[5, 9], [1, 59], [3, 249]] = Except.ok secret :=
  ⟨by decide, by decide, by decide, by decide, by decide, by decide, by decide,
    recoverSecret_order_independent [1, 3, 5] [5, 1, 3] [[1, 59], [3, 249], [5, 9]]
      [[5, 9], [1, 59], [3, 249]] 2 (by decide) (by decide) (by decide) (by decide)
      (by decide) (by decide) (by decide)⟩

/-- C27: `recoverSecret` never reads byte 0 of a share. For every list of share ids and
every two lists of shares with the same number of shares that agree, share by share, in
length and in every byte except byte 0, `recoverSecret` gives the same outcome (the same
secret or the same error): the x-coordinates it uses are the given share ids only. -/
theorem recoverSecret_ignores_byte0 (shareIds : List Int) (shares shares' : List (List Nat))
    (hn : shares.length = shares'.length)
    (h : ∀ i < shares.length,
      (shares.getD i []).length = (shares'.getD i []).length ∧
      ∀ k, 1 ≤ k → (shares.getD i []).getD k 0 = (shares'.getD i []).getD k 0) :
    recoverSecret shareIds shares = recoverSecret shareIds shares' := by
  unfold recoverSecret
  rw [← hn]
  by_cases h2 : shares.length < 2
  · rw [if_pos h2, if_pos h2]
  · rw [if_neg h2, if_neg h2, ← (h 0 (by omega)).1]
    split
    · rfl
    · rename_i secretSize _
      dsimp only
      rw [foldlM_congr (gatherStep shareIds shares secretSize)
        (gatherStep shareIds shares' secretSize) (List.range shares.length)]
      intro s i hi
      have hi' := List.mem_range.1 hi
      unfold gatherStep
      rw [← (h i hi').1]
      rw [foldl_congr_fun (copyStep (shares.getD i []) i) (copyStep (shares'.getD i []) i)]
      intro yv b
      unfold copyStep
      rw [(h i hi').2 (b + 1) (by omega)]

/-- Two share lists that differ in the embedded x-coordinates only. -/
theorem recoverSecret_ignores_byte0_witness :
    [[1, 59], [3, 249]].length = [[200, 59], [0, 249]].length ∧
    (∀ i < [[1, 59], [3, 249]].length,
      ([[1, 59], [3, 249]].getD i []).length = ([[200, 59], [0, 249]].getD i []).length ∧
      ∀ k, 1 ≤ k →
        ([[1, 59], [3, 249]].getD i []).getD k 0
          = ([[200, 59], [0, 249]].getD i []).getD k 0) ∧
    recoverSecret [1, 3] [[1, 59], [3, 249]] = recoverSecret [1, 3] [[200, 59], [0, 249]] :=
  have hyp : ∀ i < [[1, 59], [3, 249]].length,
      ([[1, 59], [3, 249]].getD i []).length = ([[200, 59], [0, 249]].getD i []).length ∧
      ∀ k, 1 ≤ k →
        ([[1, 59], [3, 249]].getD i []).getD k 0
          = ([[200, 59], [0, 249]].getD i []).getD k 0 := by
    intro i hi
    have hi' : i = 0 ∨ i = 1 := by
      simp only [List.length_cons, List.length_nil] at hi
      omega
    rcases hi' with rfl | rfl
    · refine ⟨rfl, fun k hk => ?_⟩
      obtain ⟨m, rfl⟩ : ∃ m, k = m + 1 := ⟨k - 1, by omega⟩
      rfl
    · refine ⟨rfl, fun k hk => ?_⟩
      obtain ⟨m, rfl⟩ : ∃ m, k = m + 1 := ⟨k - 1, by omega⟩
      rfl
  ⟨rfl, hyp, recoverSecret_ignores_byte0 [1, 3] [[1, 59], [3, 249]] [[200, 59], [0, 249]]
    rfl hyp⟩

/-- C28: `recoverSecret` uses the low 8 bits of each share id only and checks no range.
For at least 2 shares and two id lists of the length of the share list whose entries are
congruent modulo 256 position by position, `recoverSecret` gives the same outcome on both;
and two ids at different positions that are congruent modulo 256 (such as 2 and 258), with
shares of one length `M ≥ 2`, make `recoverSecret` throw the `"Division by zero"` error. -/
theorem recoverSecret_low_byte (shareIds shareIds' : List Int) (shares : List (List Nat))
    (hn : 2 ≤ shares.length)
    (hl : shareIds.length = shares.length) (hl' : shareIds'.length = shares.length)
    (hc : ∀ i < shares.length, shareIds.getD i 0 % 256 = shareIds'.getD i 0 % 256) :
    recoverSecret shareIds shares = recoverSecret shareIds' shares ∧
    (∀ M, 2 ≤ M → (∀ s ∈ shares, s.length = M) →
      (∃ i < shares.length, ∃ j < shares.length, i ≠ j ∧
        shareIds.getD i 0 % 256 = shareIds.getD j 0 % 256) →
      recoverSecret shareIds shares
        = Except.error (Exn.invalid_argument "Division by zero")) := by
  constructor
  · unfold recoverSecret
    rw [if_neg (by omega), if_neg (by omega)]
    split
    · rfl
    · rename_i secretSize _
      dsimp only
      rw [foldlM_congr (gatherStep shareIds shares secretSize)
        (gatherStep shareIds' shares secretSize) (List.range shares.length)]
      intro s i hi
      have hi' := List.mem_range.1 hi
      unfold gatherStep
      rw [readAt_getD shareIds i 0 (by omega), readAt_getD shareIds' i 0 (by omega)]
      simp only [Except.bind, bind, hc i hi']
  · intro M hM hlen hdup
    have hlen' : ∀ i < shares.length, (shares.getD i []).length = (M - 1) + 1 := by
      intro i hi
      rw [hlen _ (getD_mem shares i [] hi)]
      omega
    apply recoverSecret_dup_error shareIds shares (M - 1) hn (by omega) hlen' (by omega)
    obtain ⟨i, hi, j, hj, hij, e⟩ := hdup
    refine ⟨i, hi, j, hj, hij, ?_⟩
    unfold idByte
    rw [e]

/-- The ids `[2, 258]` act as `[2, 2]`. -/
theorem recoverSecret_low_byte_witness :
    2 ≤ [[2, 5], [2, 8]].length ∧
    ([2, 258] : List Int).length = [[2, 5], [2, 8]].length ∧
    ([2, 2] : List Int).length = [[2, 5], [2, 8]].length ∧
    (∀ i < [[2, 5], [2, 8]].length,
      ([2, 258] : List Int).getD i 0 % 256 = ([2, 2] : List Int).getD i 0 % 256) ∧
    recoverSecret [2, 258] [[2, 5], [2, 8]] = recoverSecret [2, 2] [[2, 5], [2, 8]] ∧
    (∀ M, 2 ≤ M → (∀ s ∈ [[2, 5], [2, 8]], s.length = M) →
      (∃ i < [[2, 5], [2, 8]].length, ∃ j < [[2, 5], [2, 8]].length, i ≠ j ∧
        ([2, 258] : List Int).getD i 0 % 256 = ([2, 258] : List Int).getD j 0 % 256) →
      recoverSecret [2, 258] [[2, 5], [2, 8]]
        = Except.error (Exn.invalid_argument "Division by zero")) :=
  ⟨by decide, by decide, by decide, by decide,
    recoverSecret_low_byte [2, 258] [2, 2] [[2, 5], [2, 8]] (by decide) (by decide)
      (by decide) (by decide)⟩

/-- C29: share id 0 short-circuits the scheme. For `n ≥ 2` shares of one length `M ≥ 1`
with `n` share ids that are pairwise different as bytes, if `shareIds[j]` is 0 or another
multiple of 256, then `recoverSecret` succeeds and returns exactly the bytes `1..end` of
`shares[j]` (a vector of bytes), whatever the other shares hold. -/
theorem recoverSecret_id_zero (shareIds : List Int) (shares : List (List Nat)) (M j : Nat)
    (hn : 2 ≤ shares.length) (hM : 1 ≤ M) (hlen : ∀ s ∈ shares, s.length = M)
    (hids : shareIds.length = shares.length)
    (hd : ∀ i < shareIds.length, ∀ k < shareIds.length, i ≠ k →
      shareIds.getD i 0 % 256 ≠ shareIds.getD k 0 % 256)
    (hj : j < shares.length) (hz : shareIds.getD j 0 % 256 = 0)
    (hb : ∀ y ∈ shares.getD j [], y < 256) :
    recoverSecret shareIds shares = Except.ok (shares.getD j []).tail := by
  have hlen' : ∀ i < shares.length, (shares.getD i []).length = (M - 1) + 1 := by
    intro i hi
    rw [hlen _ (getD_mem shares i [] hi)]
    omega
  have hdx : DistinctBytes (gatheredX shareIds shares.length) :=
    distinct_gatheredX shareIds shares.length (by rw [← hids]; exact hd)
  have hxj : (gatheredX shareIds shares.length).getD j 0 = 0 := by
    rw [gatheredX_getD _ _ _ hj]
    unfold idByte
    rw [hz]
    rfl
  have hv : ∀ b < M - 1, interpolate (gatheredX shareIds shares.length)
      (gatheredY shares b) 0 = Except.ok ((shares.getD j []).getD (b + 1) 0) := by
    intro b hbM
    obtain ⟨r, hr, er, br⟩ := interpolate_ok (gatheredX shareIds shares.length)
      (gatheredY shares b) 0 (by rw [gatheredX_length, gatheredY_length]) hdx
    rw [hr]
    congr 1
    have hbyte : (shares.getD j []).getD (b + 1) 0 < 256 :=
      hb _ (getD_mem _ _ 0 (by rw [hlen' j hj]; omega))
    apply ofNat_injOn (br (Or.inl (by rw [gatheredX_length]; exact hn))) hbyte
    rw [er]
    have hnode := Lagrange.eval_interpolate_at_node
      (s := Finset.range (gatheredX shareIds shares.length).length)
      (v := fun k => GF256.ofNat ((gatheredX shareIds shares.length).getD k 0))
      (fun k => GF256.ofNat ((gatheredY shares b).getD k 0)) hdx.injOn
      (Finset.mem_range.2 (by rw [gatheredX_length]; exact hj))
    simp only [hxj] at hnode
    rw [hnode, gatheredY_getD' _ _ _ hj]
  rw [recoverSecret_ok shareIds shares (M - 1) hn hlen' (by omega) _ hv]
  congr 1
  exact tail_eq_map_getD _ _ (hlen' j hj)

/-- The id 256 makes the recovery return the bytes of its share. -/
theorem recoverSecret_id_zero_witness :
    2 ≤ [[1, 5, 6], [2, 6, 9]].length ∧ 1 ≤ 3 ∧ (∀ s ∈ [[1, 5, 6], [2, 6, 9]], s.length = 3) ∧
    ([256, 7] : List Int).length = [[1, 5, 6], [2, 6, 9]].length ∧
    (∀ i < ([256, 7] : List Int).length, ∀ k < ([256, 7] : List Int).length, i ≠ k →
      ([256, 7] : List Int).getD i 0 % 256 ≠ ([256, 7] : List Int).getD k 0 % 256) ∧
    0 < [[1, 5, 6], [2, 6, 9]].length ∧ ([256, 7] : List Int).getD 0 0 % 256 = 0 ∧
    (∀ y ∈ [[1, 5, 6], [2, 6, 9]].getD 0 [], y < 256) ∧
    recoverSecret [256, 7] [[1, 5, 6], [2, 6, 9]]
      = Except.ok ([[1, 5, 6], [2, 6, 9]].getD 0 []).tail :=
  ⟨by decide, by decide, by decide, by decide, by decide, by decide, by decide, by decide,
    recoverSecret_id_zero [256, 7] [[1, 5, 6], [2, 6, 9]] 3 0 (by decide) (by decide)
      (by decide) (by decide) (by decide) (by decide) (by decide) (by decide)⟩

end shamir
